import Mathlib

/-!  Verification model of the xrft spectral-transform library (xrft/xrft.py).

The Python source operates on labeled arrays with floating-point data.  This
development shallowly embeds the one-axis (and, where a claim needs it, the
two-axis) transform pipeline with exact arithmetic: coordinates are rational
numbers, array values are complex numbers, and the numpy FFT kernels
(`fftn`, `ifftn`, `rfftn`, `irfftn`, `fftshift`, `ifftshift`, `fftfreq`,
`rfftfreq`) are embedded by their defining formulas.  Fallible code paths
(the validation `raise` statements) are embedded with `Except`.
-/

open scoped BigOperators

/- Batteries marks the `Rat` arithmetic primitives `@[irreducible]`, which
blocks kernel evaluation of concrete rational expressions by `decide`; restore
the default reducibility so concrete instances of the model evaluate. -/
set_option allowUnsafeReducibility true in
attribute [semireducible] Rat.add Rat.sub Rat.mul Rat.inv Rat.ofScientific

namespace Xrft

/-- The complex exponential `exp (2 * pi * q * I)` for a rational `q`.  Every
phase factor appearing in the transforms is of this form. -/
noncomputable def cexp (q : ℚ) : ℂ := Complex.exp (2 * (Real.pi : ℂ) * (q : ℂ) * Complex.I)

theorem cexp_add (a b : ℚ) : cexp (a + b) = cexp a * cexp b := by
  unfold cexp
  rw [← Complex.exp_add]
  congr 1
  push_cast
  ring

theorem cexp_zero : cexp 0 = 1 := by
  unfold cexp
  norm_num [Complex.exp_zero]

theorem cexp_intCast (n : ℤ) : cexp n = 1 := by
  unfold cexp
  rw [← Complex.exp_int_mul_two_pi_mul_I n]
  congr 1
  push_cast
  ring

theorem cexp_natCast (n : ℕ) : cexp n = 1 := by
  have harg : (((n : ℤ) : ℚ)) = ((n : ℕ) : ℚ) := by push_cast; ring
  have h := cexp_intCast (n : ℤ)
  rwa [harg] at h

theorem cexp_nat_mul (n : ℕ) (q : ℚ) : cexp (n * q) = cexp q ^ n := by
  unfold cexp
  rw [← Complex.exp_nat_mul]
  congr 1
  push_cast
  ring

theorem cexp_neg (q : ℚ) : cexp (-q) = (cexp q)⁻¹ := by
  unfold cexp
  rw [← Complex.exp_neg]
  congr 1
  push_cast
  ring

theorem cexp_conj (q : ℚ) : (starRingEnd ℂ) (cexp q) = cexp (-q) := by
  unfold cexp
  rw [← Complex.exp_conj]
  congr 1
  simp only [map_mul, Complex.conj_I, map_ofNat]
  rw [Complex.conj_ofReal]
  have : (starRingEnd ℂ) ((q : ℝ) : ℂ) = ((q : ℝ) : ℂ) := Complex.conj_ofReal _
  push_cast at this ⊢
  rw [this]
  ring

/-- Orthogonality of the discrete characters: summing `exp (2 pi i k c / N)`
over one period gives `N` when `N` divides `c` and `0` otherwise. -/
theorem sum_cexp_div (N : ℕ) (c : ℤ) :
    (∑ k : Fin N, cexp ((k : ℕ) * ((c : ℚ) / N))) =
      if (N : ℤ) ∣ c then (N : ℂ) else 0 := by
  rcases Nat.eq_zero_or_pos N with hN | hN
  · subst hN
    simp only [Finset.univ_eq_empty, Finset.sum_empty, Nat.cast_zero]
    by_cases h : ((0 : ℕ) : ℤ) ∣ c <;> simp [h]
  have hNQ : (N : ℚ) ≠ 0 := Nat.cast_ne_zero.mpr hN.ne'
  have hterm : ∀ k : Fin N, cexp ((k : ℕ) * ((c : ℚ) / N)) = (cexp ((c : ℚ) / N)) ^ (k : ℕ) :=
    fun k => cexp_nat_mul (k : ℕ) ((c : ℚ) / N)
  simp only [hterm]
  rw [Fin.sum_univ_eq_sum_range (fun k => (cexp ((c : ℚ) / N)) ^ k) N]
  by_cases hdvd : (N : ℤ) ∣ c
  · obtain ⟨t, ht⟩ := id hdvd
    have hq : (c : ℚ) / N = (t : ℚ) := by
      rw [ht]
      push_cast
      field_simp
    rw [hq]
    have h1 : cexp (t : ℚ) = 1 := cexp_intCast t
    rw [h1]
    simp [hdvd]
  · have hne : cexp ((c : ℚ) / N) ≠ 1 := by
      intro h1
      unfold cexp at h1
      rw [Complex.exp_eq_one_iff] at h1
      obtain ⟨n, hn⟩ := h1
      have h2pi : (2 : ℂ) * (Real.pi : ℂ) * Complex.I ≠ 0 := by
        have hpi : (Real.pi : ℂ) ≠ 0 := by exact_mod_cast Real.pi_ne_zero
        simp [hpi, Complex.I_ne_zero]
      have hfac : ((((c : ℚ) / N : ℚ)) : ℂ) * (2 * (Real.pi : ℂ) * Complex.I) =
          (n : ℂ) * (2 * (Real.pi : ℂ) * Complex.I) := by
        linear_combination hn
      have h2 : ((((c : ℚ) / N : ℚ)) : ℂ) = (n : ℂ) := mul_right_cancel₀ h2pi hfac
      have h3 : ((c : ℚ) / N) = (n : ℚ) := by exact_mod_cast h2
      have h4 : (c : ℚ) = (n : ℚ) * N := by
        rw [div_eq_iff hNQ] at h3
        exact h3
      have h5 : c = n * N := by exact_mod_cast h4
      exact hdvd ⟨n, by linarith⟩
    rw [geom_sum_eq hne N]
    have hpow : cexp ((c : ℚ) / N) ^ N = 1 := by
      rw [← cexp_nat_mul]
      have harg : (N : ℚ) * ((c : ℚ) / N) = (c : ℚ) := by field_simp
      rw [harg]
      exact cexp_intCast c
    rw [hpow]
    simp [hdvd]

/-- Embedding of `numpy.fft.fftn` restricted to one axis: the plain forward DFT. -/
noncomputable def fftF {N : ℕ} (x : Fin N → ℂ) (k : Fin N) : ℂ :=
  ∑ j : Fin N, x j * cexp (-((((j : ℕ) * (k : ℕ) : ℕ) : ℚ) / N))

/-- Embedding of `numpy.fft.ifftn` restricted to one axis: the inverse DFT with
the `1/N` normalization used by numpy. -/
noncomputable def ifftF {N : ℕ} (X : Fin N → ℂ) (m : Fin N) : ℂ :=
  (∑ k : Fin N, X k * cexp ((((k : ℕ) * (m : ℕ) : ℕ) : ℚ) / N)) / N

/-- Index map underlying `numpy.roll` by `s` on an axis of length `N`. -/
def shiftIdx {N : ℕ} (s : ℕ) (i : Fin N) : Fin N :=
  ⟨((i : ℕ) + s) % N, Nat.mod_lt _ i.pos⟩

/-- Embedding of `numpy.fft.fftshift` on one axis: `roll` by `N / 2`. -/
def fftshiftF {N : ℕ} {α : Type*} (x : Fin N → α) : Fin N → α :=
  fun i => x (shiftIdx (N - N / 2) i)

/-- Embedding of `numpy.fft.ifftshift` on one axis: `roll` by `-(N / 2)`. -/
def ifftshiftF {N : ℕ} {α : Type*} (x : Fin N → α) : Fin N → α :=
  fun i => x (shiftIdx (N / 2) i)

theorem ifftshiftF_fftshiftF {N : ℕ} {α : Type*} (x : Fin N → α) :
    ifftshiftF (fftshiftF x) = x := by
  funext i
  show x (shiftIdx (N - N / 2) (shiftIdx (N / 2) i)) = x i
  congr 1
  apply Fin.ext
  show (((i : ℕ) + N / 2) % N + (N - N / 2)) % N = (i : ℕ)
  rw [Nat.mod_add_mod]
  have h1 : (i : ℕ) + N / 2 + (N - N / 2) = (i : ℕ) + N := by
    have := i.isLt
    omega
  rw [h1, Nat.add_mod_right, Nat.mod_eq_of_lt i.isLt]

theorem fftshiftF_ifftshiftF {N : ℕ} {α : Type*} (x : Fin N → α) :
    fftshiftF (ifftshiftF x) = x := by
  funext i
  show x (shiftIdx (N / 2) (shiftIdx (N - N / 2) i)) = x i
  congr 1
  apply Fin.ext
  show (((i : ℕ) + (N - N / 2)) % N + N / 2) % N = (i : ℕ)
  rw [Nat.mod_add_mod]
  have h1 : (i : ℕ) + (N - N / 2) + N / 2 = (i : ℕ) + N := by
    have := i.isLt
    omega
  rw [h1, Nat.add_mod_right, Nat.mod_eq_of_lt i.isLt]

/-- The inverse DFT inverts the forward DFT exactly. -/
theorem ifftF_fftF {N : ℕ} (x : Fin N → ℂ) : ifftF (fftF x) = x := by
  funext m
  have hN : 0 < N := m.pos
  have hNC : (N : ℂ) ≠ 0 := Nat.cast_ne_zero.mpr hN.ne'
  unfold ifftF fftF
  have key : (∑ k : Fin N, (∑ j : Fin N, x j * cexp (-((((j : ℕ) * (k : ℕ) : ℕ) : ℚ) / N))) *
      cexp ((((k : ℕ) * (m : ℕ) : ℕ) : ℚ) / N)) = (N : ℂ) * x m := by
    simp only [Finset.sum_mul]
    rw [Finset.sum_comm]
    have hterm : ∀ j k : Fin N,
        x j * cexp (-((((j : ℕ) * (k : ℕ) : ℕ) : ℚ) / N)) * cexp ((((k : ℕ) * (m : ℕ) : ℕ) : ℚ) / N) =
          x j * cexp ((k : ℕ) * ((((m : ℤ) - (j : ℤ) : ℤ) : ℚ) / N)) := by
      intro j k
      rw [mul_assoc, ← cexp_add]
      congr 2
      push_cast
      ring
    simp only [hterm]
    have hrow : ∀ j : Fin N,
        (∑ k : Fin N, x j * cexp ((k : ℕ) * ((((m : ℤ) - (j : ℤ) : ℤ) : ℚ) / N))) =
          x j * if m = j then (N : ℂ) else 0 := by
      intro j
      rw [← Finset.mul_sum, sum_cexp_div N ((m : ℤ) - (j : ℤ))]
      congr 1
      have hiff : ((N : ℤ) ∣ ((m : ℤ) - (j : ℤ))) ↔ m = j := by
        constructor
        · intro hdvd
          obtain ⟨t, ht⟩ := hdvd
          have hm : (m : ℤ) < N := by exact_mod_cast m.isLt
          have hj : (j : ℤ) < N := by exact_mod_cast j.isLt
          have hm0 : (0 : ℤ) ≤ (m : ℤ) := by positivity
          have hj0 : (0 : ℤ) ≤ (j : ℤ) := by positivity
          have hNpos : (0 : ℤ) < N := by exact_mod_cast hN
          have htz : t = 0 := by
            rcases lt_trichotomy t 0 with hlt | heq | hgt
            · exfalso
              have hp : (N : ℤ) * t ≤ -N := by nlinarith
              omega
            · exact heq
            · exfalso
              have hp : (N : ℤ) ≤ N * t := by nlinarith
              omega
          have hz : (m : ℤ) = (j : ℤ) := by
            rw [htz, mul_zero] at ht
            omega
          apply Fin.ext
          exact_mod_cast hz
        · intro h
          subst h
          simp
      simp only [hiff]
    simp only [hrow]
    simp only [mul_ite, mul_zero]
    rw [Finset.sum_ite_eq Finset.univ m (fun j => x j * (N : ℂ))]
    simp [mul_comm]
  rw [key, mul_comm, mul_div_assoc, div_self hNC, mul_one]

/-- Embedding of `numpy.fft.rfftn` restricted to one axis: the forward DFT of
(implicitly real) input keeping only the first `N/2 + 1` frequencies. -/
noncomputable def rfftF {N : ℕ} (x : Fin N → ℂ) (k : Fin (N / 2 + 1)) : ℂ :=
  if h : (k : ℕ) < N then fftF x ⟨(k : ℕ), h⟩ else 0

/-- Hermitian extension of a half spectrum of length `M` to a full spectrum of
length `2*(M-1)`, as performed implicitly by `numpy.fft.irfftn`. -/
noncomputable def hermExtend {M : ℕ} (F : Fin M → ℂ) (k : Fin (2 * (M - 1))) : ℂ :=
  if h : (k : ℕ) < M then F ⟨(k : ℕ), h⟩
  else (starRingEnd ℂ) (F ⟨2 * (M - 1) - (k : ℕ), by have := k.isLt; omega⟩)

/-- Embedding of `numpy.fft.irfftn` restricted to one axis (default output
length `2*(M-1)`): inverse DFT of the Hermitian extension with numpy
normalization `1/n`; the C2R kernel produces the real part. -/
noncomputable def irfftF {M : ℕ} (F : Fin M → ℂ) (m : Fin (2 * (M - 1))) : ℝ :=
  ((∑ k : Fin (2 * (M - 1)), hermExtend F k *
      cexp ((((k : ℕ) * (m : ℕ) : ℕ) : ℚ) / ((2 * (M - 1) : ℕ) : ℚ))) /
    ((2 * (M - 1) : ℕ) : ℂ)).re

/-- Hermitian symmetry of the DFT of a real-valued signal: conjugating the
spectrum at `a` gives the value at `N - a`. -/
theorem conj_fftF_real {N : ℕ} (y : Fin N → ℝ) (a b : Fin N) (hab : (a : ℕ) + (b : ℕ) = N) :
    (starRingEnd ℂ) (fftF (fun j => ((y j : ℝ) : ℂ)) a) = fftF (fun j => ((y j : ℝ) : ℂ)) b := by
  unfold fftF
  rw [map_sum]
  apply Finset.sum_congr rfl
  intro j _
  rw [map_mul, Complex.conj_ofReal, cexp_conj, neg_neg]
  congr 1
  have hsum : cexp ((((j : ℕ) * (a : ℕ) : ℕ) : ℚ) / N) *
      cexp ((((j : ℕ) * (b : ℕ) : ℕ) : ℚ) / N) = 1 := by
    rw [← cexp_add]
    have harg : (((j : ℕ) * (a : ℕ) : ℕ) : ℚ) / N + (((j : ℕ) * (b : ℕ) : ℕ) : ℚ) / N =
        (((j : ℕ) : ℕ) : ℚ) := by
      rcases Nat.eq_zero_or_pos N with h0 | hpos
      · subst h0
        exact absurd j.isLt (Nat.not_lt_zero _)
      · have hNQ : (N : ℚ) ≠ 0 := Nat.cast_ne_zero.mpr hpos.ne'
        rw [div_add_div_same, div_eq_iff hNQ]
        push_cast [← hab]
        ring
    rw [harg, cexp_natCast]
  rw [cexp_neg]
  exact eq_inv_of_mul_eq_one_left hsum

/-- For an even-length real signal, the embedded `irfftn` inverts the embedded
`rfftn` exactly (numpy semantics: output length `2*(M-1)` equals the original
length). -/
theorem irfftF_rfftF_even (p : ℕ) (hp : 1 ≤ p) (y : Fin (2 * p) → ℝ)
    (m : Fin (2 * ((2 * p) / 2 + 1 - 1))) :
    irfftF (rfftF (fun j => ((y j : ℝ) : ℂ))) m = y ⟨(m : ℕ), by have := m.isLt; omega⟩ := by
  have hn : 2 * ((2 * p) / 2 + 1 - 1) = 2 * p := by omega
  have hm2 : (m : ℕ) < 2 * p := by have := m.isLt; omega
  unfold irfftF
  have hA : ∀ k : Fin (2 * ((2 * p) / 2 + 1 - 1)),
      hermExtend (rfftF (fun j => ((y j : ℝ) : ℂ))) k =
        fftF (fun j => ((y j : ℝ) : ℂ)) ⟨(k : ℕ), by have := k.isLt; omega⟩ := by
    intro k
    have hklt : (k : ℕ) < 2 * ((2 * p) / 2 + 1 - 1) := k.isLt
    unfold hermExtend
    by_cases hk : (k : ℕ) < (2 * p) / 2 + 1
    · rw [dif_pos hk]
      unfold rfftF
      rw [dif_pos (show ((⟨(k : ℕ), hk⟩ : Fin ((2 * p) / 2 + 1)) : ℕ) < 2 * p by omega)]
    · rw [dif_neg hk]
      unfold rfftF
      have hsub : (2 * ((2 * p) / 2 + 1 - 1) - (k : ℕ)) < 2 * p := by omega
      rw [dif_pos (show ((⟨2 * ((2 * p) / 2 + 1 - 1) - (k : ℕ), by omega⟩ :
          Fin ((2 * p) / 2 + 1)) : ℕ) < 2 * p by omega)]
      exact conj_fftF_real y ⟨2 * ((2 * p) / 2 + 1 - 1) - (k : ℕ), by omega⟩
        ⟨(k : ℕ), by omega⟩
        (by show 2 * ((2 * p) / 2 + 1 - 1) - (k : ℕ) + (k : ℕ) = 2 * p; omega)
  have hsum : (∑ k : Fin (2 * ((2 * p) / 2 + 1 - 1)),
      hermExtend (rfftF (fun j => ((y j : ℝ) : ℂ))) k *
        cexp ((((k : ℕ) * (m : ℕ) : ℕ) : ℚ) / ((2 * ((2 * p) / 2 + 1 - 1) : ℕ) : ℚ))) =
      ∑ k : Fin (2 * p), fftF (fun j => ((y j : ℝ) : ℂ)) k *
        cexp ((((k : ℕ) * ((⟨(m : ℕ), hm2⟩ : Fin (2 * p)) : ℕ) : ℕ) : ℚ) / ((2 * p : ℕ) : ℚ)) := by
    apply Fintype.sum_equiv (finCongr hn)
    intro k
    rw [hA k]
    have hden : ((2 * ((2 * p) / 2 + 1 - 1) : ℕ) : ℚ) = ((2 * p : ℕ) : ℚ) := by rw [hn]
    rw [hden]
    rfl
  rw [hsum]
  have hdenC : ((2 * ((2 * p) / 2 + 1 - 1) : ℕ) : ℂ) = ((2 * p : ℕ) : ℂ) := by rw [hn]
  rw [hdenC]
  have hifft : (∑ k : Fin (2 * p), fftF (fun j => ((y j : ℝ) : ℂ)) k *
      cexp ((((k : ℕ) * ((⟨(m : ℕ), hm2⟩ : Fin (2 * p)) : ℕ) : ℕ) : ℚ) / ((2 * p : ℕ) : ℚ))) /
        ((2 * p : ℕ) : ℂ) =
      ifftF (fftF (fun j => ((y j : ℝ) : ℂ))) ⟨(m : ℕ), hm2⟩ := rfl
  rw [hifft, ifftF_fftF]
  exact Complex.ofReal_re _

/-- Embedding of `numpy.fft.fftfreq N d`: index `j` maps to `j/(N*d)` for
`j < (N+1)/2` and `(j-N)/(N*d)` otherwise. -/
def fftfreqQ (N : ℕ) (d : ℚ) (j : Fin N) : ℚ :=
  (if (j : ℕ) < (N + 1) / 2 then ((j : ℕ) : ℚ) else ((j : ℕ) : ℚ) - N) / (N * d)

/-- Embedding of `numpy.fft.rfftfreq N d`: the nonnegative frequencies only. -/
def rfftfreqQ (N : ℕ) (d : ℚ) (j : Fin (N / 2 + 1)) : ℚ := ((j : ℕ) : ℚ) / (N * d)

/-- Closed form of the fftshifted frequency grid: after the shift, index `j`
carries frequency `(j - N/2) / (N*d)`. -/
theorem fftshiftF_fftfreqQ (N : ℕ) (d : ℚ) (j : Fin N) :
    fftshiftF (fftfreqQ N d) j = (((j : ℕ) : ℚ) - ((N / 2 : ℕ) : ℚ)) / (N * d) := by
  unfold fftshiftF shiftIdx fftfreqQ
  have hjN := j.isLt
  by_cases hj : (j : ℕ) < N / 2
  · have hlt : (j : ℕ) + (N - N / 2) < N := by omega
    have hmod : ((j : ℕ) + (N - N / 2)) % N = (j : ℕ) + (N - N / 2) := Nat.mod_eq_of_lt hlt
    simp only [Fin.val_mk, hmod]
    rw [if_neg (by omega)]
    congr 1
    push_cast [Nat.cast_sub (Nat.div_le_self N 2)]
    ring
  · have h1 : (j : ℕ) + (N - N / 2) = ((j : ℕ) - N / 2) + N := by omega
    have hmod : ((j : ℕ) + (N - N / 2)) % N = (j : ℕ) - N / 2 := by
      rw [h1, Nat.add_mod_right, Nat.mod_eq_of_lt (by omega)]
    simp only [Fin.val_mk, hmod]
    rw [if_pos (by omega)]
    congr 1
    push_cast [Nat.cast_sub (by omega : N / 2 ≤ (j : ℕ))]
    ring

/-- Error taxonomy of the validation `raise` statements in xrft (plus the
`IndexError` Python raises when `diff[0]` is taken on an axis shorter than 2). -/
inductive XErr
  | indexErr
  | nonUniform
  | zeroSpacing
  | uncentered
  | mismatchedDims
  | invalidScaling
deriving DecidableEq

/-- One-axis labeled array: rational coordinate vector and complex values. -/
structure QC (N : ℕ) where
  coord : Fin N → ℚ
  vals : Fin N → ℂ

/-- One-axis labeled array: rational coordinate vector and real values. -/
structure QR (N : ℕ) where
  coord : Fin N → ℚ
  vals : Fin N → ℝ

/-- Consecutive coordinate differences, embedding `np.diff` / `_diff_coord`. -/
def diffC {N : ℕ} (c : Fin N → ℚ) (i : Fin (N - 1)) : ℚ :=
  c ⟨(i : ℕ) + 1, by have := i.isLt; omega⟩ - c ⟨(i : ℕ), by have := i.isLt; omega⟩

/-- First coordinate difference `diff[0]` (needs at least two points). -/
def diff0 {N : ℕ} (h : 2 ≤ N) (c : Fin N → ℚ) : ℚ :=
  diffC c ⟨0, by omega⟩

/-- Default absolute tolerance of `np.allclose` (`atol = 1e-8`). -/
def npAtol : ℚ := 1 / 100000000

/-- Embedding of the `np.allclose(diff, diff[0], rtol=spacing_tol)` test used
to validate even spacing.  `np.allclose(a, b, rtol)` checks
`|a - b| <= atol + rtol * |b|` elementwise with its default `atol = 1e-8`. -/
def uniformOK {N : ℕ} (h : 2 ≤ N) (c : Fin N → ℚ) (rtol : ℚ) : Bool :=
  decide (∀ i : Fin (N - 1), |diffC c i - diff0 h c| ≤ npAtol + rtol * |diff0 h c|)

theorem uniformOK_iff {N : ℕ} (h : 2 ≤ N) (c : Fin N → ℚ) (rtol : ℚ) :
    uniformOK h c rtol = true ↔
      ∀ i : Fin (N - 1), |diffC c i - diff0 h c| ≤ npAtol + rtol * |diff0 h c| := by
  simp [uniformOK]

/-- Sorting permutation by coordinate value, embedding the index permutation
performed by `xarray.DataArray.sortby`. -/
def sortPerm {N : ℕ} (c : Fin N → ℚ) (j : Fin N) : Fin N :=
  ((List.finRange N).mergeSort (fun a b => decide (c a ≤ c b))).get
    ⟨(j : ℕ), by rw [List.length_mergeSort, List.length_finRange]; exact j.isLt⟩

/-- Embedding of `daft.sortby(d)`: coordinates and values reordered together. -/
def sortByCoord {N : ℕ} (da : QC N) : QC N :=
  ⟨fun j => da.coord (sortPerm da.coord j), fun j => da.vals (sortPerm da.coord j)⟩

/-- The per-axis validation loop of the forward transform (`dft`, xrft.py lines
342-360): compute `delta = |diff[0]|` and `lag = coord[N//2]`, raise if the
spacing is not even within tolerance, raise if the spacing is zero.  Returns
`(delta, lag)` on success. -/
def dftCheck (tol : ℚ) {N : ℕ} (c : Fin N → ℚ) : Except XErr (ℚ × ℚ) :=
  if h2 : 2 ≤ N then
    let delta : ℚ := |diff0 h2 c|
    let lag : ℚ := c ⟨N / 2, by omega⟩
    if uniformOK h2 c tol then
      if delta = 0 then .error .zeroSpacing else .ok (delta, lag)
    else .error .nonUniform
  else .error .indexErr

/-- One-axis forward transform `dft` on the complex path (`real=None`), with
`detrend=None`, `window=False`, `chunks_to_segments=False` (their defaults).
Follows xrft.py lines 296-402: validate spacing, optionally `ifftshift` the
input (`true_phase`), apply `fftn`, optionally `fftshift` output and frequency
bins, attach `fftfreq` coordinates, apply the lag phase ramp (`true_phase`) and
the spacing amplitude factor (`true_amplitude`). -/
noncomputable def dft1 (tol : ℚ) (shift truePhase trueAmplitude : Bool) {N : ℕ}
    (da : QC N) : Except XErr (QC N) :=
  match dftCheck tol da.coord with
  | .error e => .error e
  | .ok (delta, lag) =>
    let f0 : Fin N → ℂ := if truePhase then fftF (ifftshiftF da.vals) else fftF da.vals
    let f1 : Fin N → ℂ := if shift then fftshiftF f0 else f0
    let k : Fin N → ℚ := if shift then fftshiftF (fftfreqQ N delta) else fftfreqQ N delta
    let f2 : Fin N → ℂ := if truePhase then fun i => f1 i * cexp (-(k i * lag)) else f1
    let f3 : Fin N → ℂ := if trueAmplitude then fun i => (delta : ℂ) * f2 i else f2
    .ok ⟨k, f3⟩

/-- One-axis forward transform `dft` on the real path (the transformed axis is
the `real` axis).  When `real` is set, dft overwrites `shift = False` before
the kernel (xrft.py lines 329-333), so the requested shift flag is ignored and
neither the kernel output nor the frequency bins are reordered; the kernel is
`rfftn` and the frequency axis is `rfftfreq`. -/
noncomputable def dft1R (tol : ℚ) (_shift truePhase trueAmplitude : Bool) {N : ℕ}
    (da : QR N) : Except XErr (QC (N / 2 + 1)) :=
  match dftCheck tol da.coord with
  | .error e => .error e
  | .ok (delta, lag) =>
    let xv : Fin N → ℂ := fun j => ((da.vals j : ℝ) : ℂ)
    let f0 : Fin (N / 2 + 1) → ℂ := if truePhase then rfftF (ifftshiftF xv) else rfftF xv
    let k : Fin (N / 2 + 1) → ℚ := rfftfreqQ N delta
    let f2 : Fin (N / 2 + 1) → ℂ := if truePhase then fun i => f0 i * cexp (-(k i * lag)) else f0
    let f3 : Fin (N / 2 + 1) → ℂ := if trueAmplitude then fun i => (delta : ℂ) * f2 i else f2
    .ok ⟨k, f3⟩

/-- The per-axis validation loop of the inverse transform (`idft`, xrft.py
lines 526-558).  `delta` is `|diff[0]|` of the original ordering.  If the
initial spacing test fails, the coordinate is re-sorted ascending and retested
(fftshifted-grid handling); the centering value `l` is the first coordinate for
the real axis and the midpoint lag otherwise, recomputed as the midpoint of the
sorted coordinate whenever the sorted branch is taken.  Then
`|l| > spacing_tol` raises the uncentered error and `delta == 0` raises the
zero-spacing error.  Returns `(delta, sorted?)` on success. -/
def idftCheck (tol : ℚ) (isReal : Bool) {N : ℕ} (c : Fin N → ℚ) : Except XErr (ℚ × Bool) :=
  if h2 : 2 ≤ N then
    let delta : ℚ := |diff0 h2 c|
    let step : Except XErr (ℚ × Bool) :=
      if uniformOK h2 c tol then
        .ok (if isReal then c ⟨0, by omega⟩ else c ⟨N / 2, by omega⟩, false)
      else
        if uniformOK h2 (fun j => c (sortPerm c j)) tol then
          .ok ((fun j => c (sortPerm c j)) ⟨N / 2, by omega⟩, true)
        else .error .nonUniform
    match step with
    | .error e => .error e
    | .ok (l, srt) =>
      if tol < |l| then .error .uncentered
      else if delta = 0 then .error .zeroSpacing
      else .ok (delta, srt)
  else .error .indexErr

/-- One-axis inverse transform `idft` on the complex path (`real=None`), with
`detrend=None`, `window=False`, `chunks_to_segments=False` (their defaults).
Follows xrft.py lines 472-605: optional caller `lag` pre-phase
`exp(+2 pi i f l)`, validation (with fftshifted-grid re-sort), `ifftshift` of
the input, `ifftn`, an extra `ifftshift` when `true_phase` is false, an
`fftshift` when `shift` is requested, inverse frequency coordinates, the
caller-lag coordinate offset, and division by the new spacing
(`true_amplitude`). -/
noncomputable def idft1 (tol : ℚ) (shift truePhase trueAmplitude : Bool) (lag : Option ℚ)
    {N : ℕ} (daft0 : QC N) : Except XErr (QC N) :=
  let daft : QC N := match lag with
    | some l => ⟨daft0.coord, fun i => daft0.vals i * cexp (daft0.coord i * l)⟩
    | none => daft0
  match idftCheck tol false daft.coord with
  | .error e => .error e
  | .ok (delta, srt) =>
    let d1 : QC N := if srt then sortByCoord daft else daft
    let f0 : Fin N → ℂ := ifftF (ifftshiftF d1.vals)
    let f1 : Fin N → ℂ := if truePhase then f0 else ifftshiftF f0
    let f2 : Fin N → ℂ := if shift then fftshiftF f1 else f1
    let k0 : Fin N → ℚ := if shift then fftshiftF (fftfreqQ N delta) else fftfreqQ N delta
    let k : Fin N → ℚ := match lag with
      | some l => fun i => k0 i + l
      | none => k0
    if h2 : 2 ≤ N then
      let newSpacing : ℚ := k0 ⟨1, by omega⟩ - k0 ⟨0, by omega⟩
      let f3 : Fin N → ℂ := if trueAmplitude then fun i => f2 i / (newSpacing : ℂ) else f2
      .ok ⟨k, f3⟩
    else .error .indexErr

/-- One-axis inverse transform `idft` on the real path (the transformed axis is
the `real` axis).  The real axis is excluded from the pre-kernel `ifftshift`
(xrft.py lines 566-568), the kernel is `irfftn` whose default output length is
`2*(M-1)`, the centering check uses the first coordinate, and the inverse
frequency axis is `fftfreq(2*(M-1), delta)` (xrft.py `_ifreq`). -/
noncomputable def idft1R (tol : ℚ) (shift truePhase trueAmplitude : Bool) (lag : Option ℚ)
    {M : ℕ} (daft0 : QC M) : Except XErr (QR (2 * (M - 1))) :=
  let daft : QC M := match lag with
    | some l => ⟨daft0.coord, fun i => daft0.vals i * cexp (daft0.coord i * l)⟩
    | none => daft0
  match idftCheck tol true daft.coord with
  | .error e => .error e
  | .ok (delta, srt) =>
    let d1 : QC M := if srt then sortByCoord daft else daft
    let f0 : Fin (2 * (M - 1)) → ℝ := irfftF d1.vals
    let f1 : Fin (2 * (M - 1)) → ℝ := if truePhase then f0 else ifftshiftF f0
    let f2 : Fin (2 * (M - 1)) → ℝ := if shift then fftshiftF f1 else f1
    let k0 : Fin (2 * (M - 1)) → ℚ :=
      if shift then fftshiftF (fftfreqQ (2 * (M - 1)) delta) else fftfreqQ (2 * (M - 1)) delta
    let k : Fin (2 * (M - 1)) → ℚ := match lag with
      | some l => fun i => k0 i + l
      | none => k0
    if h2 : 2 ≤ 2 * (M - 1) then
      let newSpacing : ℚ := k0 ⟨1, by omega⟩ - k0 ⟨0, by omega⟩
      let f3 : Fin (2 * (M - 1)) → ℝ := if trueAmplitude then fun i => f2 i / newSpacing else f2
      .ok ⟨k, f3⟩
    else .error .indexErr

theorem uniformOK_of_diff_const {N : ℕ} (h2 : 2 ≤ N) (c : Fin N → ℚ) (Δ tol : ℚ)
    (htol : 0 ≤ tol) (hd : ∀ i : Fin (N - 1), diffC c i = Δ) :
    uniformOK h2 c tol = true := by
  rw [uniformOK_iff]
  intro i
  have hd0 : diff0 h2 c = Δ := by unfold diff0; rw [hd]
  rw [hd i, hd0, sub_self, abs_zero]
  have h1 : (0 : ℚ) < npAtol := by norm_num [npAtol]
  have h2' : 0 ≤ tol * |Δ| := mul_nonneg htol (abs_nonneg _)
  linarith

theorem dftCheck_ok {N : ℕ} (h2 : 2 ≤ N) (c : Fin N → ℚ) (Δ tol : ℚ) (htol : 0 ≤ tol)
    (hΔ : 0 < Δ) (hd : ∀ i : Fin (N - 1), diffC c i = Δ) :
    dftCheck tol c = .ok (Δ, c ⟨N / 2, by omega⟩) := by
  have hu : uniformOK h2 c tol = true := uniformOK_of_diff_const h2 c Δ tol htol hd
  have hd0 : |diff0 h2 c| = Δ := by
    unfold diff0
    rw [hd]
    exact abs_of_pos hΔ
  unfold dftCheck
  rw [dif_pos h2]
  simp only [hu, if_true, hd0]
  rw [if_neg hΔ.ne']

theorem idftCheck_ok {N : ℕ} (h2 : 2 ≤ N) (isReal : Bool) (c : Fin N → ℚ) (Δ tol : ℚ)
    (htol : 0 ≤ tol) (hΔ : 0 < Δ) (hd : ∀ i : Fin (N - 1), diffC c i = Δ)
    (hl : |(if isReal then c ⟨0, by omega⟩ else c ⟨N / 2, by omega⟩)| ≤ tol) :
    idftCheck tol isReal c = .ok (Δ, false) := by
  have hu : uniformOK h2 c tol = true := uniformOK_of_diff_const h2 c Δ tol htol hd
  have hd0 : |diff0 h2 c| = Δ := by
    unfold diff0
    rw [hd]
    exact abs_of_pos hΔ
  unfold idftCheck
  rw [dif_pos h2]
  simp only [hu, if_true, hd0]
  rw [if_neg (not_lt.mpr hl), if_neg hΔ.ne']

theorem diffC_fftshift_fftfreq (N : ℕ) (d : ℚ) (i : Fin (N - 1)) :
    diffC (fftshiftF (fftfreqQ N d)) i = 1 / (N * d) := by
  unfold diffC
  rw [fftshiftF_fftfreqQ, fftshiftF_fftfreqQ]
  rw [div_sub_div_same]
  congr 1
  push_cast
  ring

theorem diffC_rfftfreq (N : ℕ) (d : ℚ) (i : Fin (N / 2 + 1 - 1)) :
    diffC (rfftfreqQ N d) i = 1 / (N * d) := by
  unfold diffC rfftfreqQ
  rw [div_sub_div_same]
  congr 1
  push_cast
  ring

theorem fftF_smul {N : ℕ} (a : ℂ) (x : Fin N → ℂ) :
    fftF (fun j => a * x j) = fun k => a * fftF x k := by
  funext k
  unfold fftF
  rw [Finset.mul_sum]
  apply Finset.sum_congr rfl
  intro j _
  ring

theorem ifftF_smul {N : ℕ} (a : ℂ) (X : Fin N → ℂ) :
    ifftF (fun k => a * X k) = fun m => a * ifftF X m := by
  funext m
  show (∑ k : Fin N, a * X k * cexp ((((k : ℕ) * (m : ℕ) : ℕ) : ℚ) / N)) / N =
    a * ((∑ k : Fin N, X k * cexp ((((k : ℕ) * (m : ℕ) : ℕ) : ℚ) / N)) / N)
  rw [← mul_div_assoc, Finset.mul_sum]
  congr 1
  apply Finset.sum_congr rfl
  intro k _
  ring

theorem irfftF_smul (a : ℝ) {M : ℕ} (F : Fin M → ℂ) :
    irfftF (fun k => ((a : ℝ) : ℂ) * F k) = fun m => a * irfftF F m := by
  funext m
  unfold irfftF
  have hherm : ∀ k : Fin (2 * (M - 1)),
      hermExtend (fun k => ((a : ℝ) : ℂ) * F k) k = ((a : ℝ) : ℂ) * hermExtend F k := by
    intro k
    unfold hermExtend
    by_cases hk : (k : ℕ) < M
    · rw [dif_pos hk, dif_pos hk]
    · rw [dif_neg hk, dif_neg hk, map_mul, Complex.conj_ofReal]
  simp only [hherm]
  have hsum : (∑ k : Fin (2 * (M - 1)), ((a : ℝ) : ℂ) * hermExtend F k *
      cexp ((((k : ℕ) * (m : ℕ) : ℕ) : ℚ) / ((2 * (M - 1) : ℕ) : ℚ))) =
      ((a : ℝ) : ℂ) * ∑ k : Fin (2 * (M - 1)), hermExtend F k *
        cexp ((((k : ℕ) * (m : ℕ) : ℕ) : ℚ) / ((2 * (M - 1) : ℕ) : ℚ)) := by
    rw [Finset.mul_sum]
    apply Finset.sum_congr rfl
    intro k _
    ring
  rw [hsum, mul_div_assoc]
  simp [Complex.mul_re, Complex.ofReal_re, Complex.ofReal_im]

/-- Round trip through the one-axis complex transform path with
`true_phase=True`, `true_amplitude=True` and default `shift=True`, for an array
whose coordinate is uniformly spaced with midpoint (lag) zero: both the values
and the coordinates are reconstructed exactly. -/
theorem dft1_idft1_roundtrip (N : ℕ) (h2 : 2 ≤ N) (Δ tol : ℚ) (htol : 0 ≤ tol) (hΔ : 0 < Δ)
    (da : QC N) (hc : ∀ j : Fin N, da.coord j = (((j : ℕ) : ℚ) - ((N / 2 : ℕ) : ℚ)) * Δ) :
    ∃ F : QC N, dft1 tol true true true da = .ok F ∧
      idft1 tol true true true none F = .ok da := by
  have hN0 : 0 < N := by omega
  have hNQ : ((N : ℕ) : ℚ) ≠ 0 := Nat.cast_ne_zero.mpr hN0.ne'
  have hΔne : Δ ≠ 0 := hΔ.ne'
  have hdiff : ∀ i : Fin (N - 1), diffC da.coord i = Δ := by
    intro i
    unfold diffC
    rw [hc, hc]
    push_cast
    ring
  have hlag : da.coord ⟨N / 2, by omega⟩ = 0 := by
    rw [hc]
    push_cast
    ring
  have hchk : dftCheck tol da.coord = .ok (Δ, 0) := by
    rw [dftCheck_ok h2 da.coord Δ tol htol hΔ hdiff, hlag]
  have hdft : dft1 tol true true true da =
      .ok ⟨fftshiftF (fftfreqQ N Δ),
        fun i => (Δ : ℂ) * fftshiftF (fftF (ifftshiftF da.vals)) i⟩ := by
    unfold dft1
    rw [hchk]
    simp only [if_true, mul_zero, neg_zero, cexp_zero, mul_one]
  refine ⟨_, hdft, ?_⟩
  -- inverse side
  have hδ2 : (0 : ℚ) < 1 / (N * Δ) := by positivity
  have hdiffk : ∀ i : Fin (N - 1), diffC (fftshiftF (fftfreqQ N Δ)) i = 1 / (N * Δ) :=
    fun i => diffC_fftshift_fftfreq N Δ i
  have hmidk : fftshiftF (fftfreqQ N Δ) ⟨N / 2, by omega⟩ = 0 := by
    rw [fftshiftF_fftfreqQ]
    simp
  have hichk : idftCheck tol false (fftshiftF (fftfreqQ N Δ)) = .ok (1 / (N * Δ), false) := by
    apply idftCheck_ok h2 false _ (1 / (N * Δ)) tol htol hδ2 hdiffk
    simp only [if_neg Bool.false_ne_true, hmidk, abs_zero]
    exact htol
  unfold idft1
  simp only [hichk]
  rw [dif_pos h2]
  -- value pipeline
  have hv1 : ifftshiftF (fun i => (Δ : ℂ) * fftshiftF (fftF (ifftshiftF da.vals)) i) =
      fun i => (Δ : ℂ) * fftF (ifftshiftF da.vals) i := by
    have h1 : ifftshiftF (fun i => (Δ : ℂ) * fftshiftF (fftF (ifftshiftF da.vals)) i) =
        fun i => (Δ : ℂ) * ifftshiftF (fftshiftF (fftF (ifftshiftF da.vals))) i := rfl
    rw [h1, ifftshiftF_fftshiftF]
  have hv2 : ifftF (fun i => (Δ : ℂ) * fftF (ifftshiftF da.vals) i) =
      fun m => (Δ : ℂ) * ifftshiftF da.vals m := by
    rw [ifftF_smul (Δ : ℂ) (fftF (ifftshiftF da.vals)), ifftF_fftF]
  have hv3 : fftshiftF (fun m => (Δ : ℂ) * ifftshiftF da.vals m) = fun i => (Δ : ℂ) * da.vals i := by
    have h1 : fftshiftF (fun m => (Δ : ℂ) * ifftshiftF da.vals m) =
        fun i => (Δ : ℂ) * fftshiftF (ifftshiftF da.vals) i := rfl
    rw [h1, fftshiftF_ifftshiftF]
  have hspacing : fftshiftF (fftfreqQ N (1 / (N * Δ))) ⟨1, by omega⟩ -
      fftshiftF (fftfreqQ N (1 / (N * Δ))) ⟨0, by omega⟩ = Δ := by
    rw [fftshiftF_fftfreqQ, fftshiftF_fftfreqQ, div_sub_div_same]
    push_cast
    field_simp
  have hkcoord : fftshiftF (fftfreqQ N (1 / (N * Δ))) = da.coord := by
    funext j
    rw [fftshiftF_fftfreqQ, hc j]
    field_simp
    ring
  simp only [Bool.false_eq_true, eq_self_iff_true, if_true, if_false]
  rw [hv1, hv2, hv3, hspacing, hkcoord]
  congr 1
  cases da with
  | mk c v =>
    simp only [QC.mk.injEq, true_and]
    funext i
    exact mul_div_cancel_left₀ (v i) (by exact_mod_cast hΔne)

/-- Round trip through the one-axis real transform path (`real` set to the
transformed axis) with `true_phase=True`, `true_amplitude=True` and the default
`shift=True` on the inverse, for a real-valued array of even length whose
coordinate is uniformly spaced with midpoint (lag) zero: values and
coordinates are reconstructed exactly (the output length `2*(M-1)` of `irfftn`
equals the original even length). -/
theorem dft1R_idft1R_roundtrip (p : ℕ) (hp : 1 ≤ p) (Δ tol : ℚ) (htol : 0 ≤ tol) (hΔ : 0 < Δ)
    (da : QR (2 * p)) (hc : ∀ j : Fin (2 * p), da.coord j = (((j : ℕ) : ℚ) - ((p : ℕ) : ℚ)) * Δ) :
    ∃ F : QC ((2 * p) / 2 + 1),
      dft1R tol true true true da = .ok F ∧
      idft1R tol true true true none F =
        .ok ⟨fun j => da.coord ⟨(j : ℕ), by have := j.isLt; omega⟩,
             fun j => da.vals ⟨(j : ℕ), by have := j.isLt; omega⟩⟩ := by
  have h2 : 2 ≤ 2 * p := by omega
  have hN0 : 0 < 2 * p := by omega
  have hNQ : ((2 * p : ℕ) : ℚ) ≠ 0 := Nat.cast_ne_zero.mpr hN0.ne'
  have hΔne : Δ ≠ 0 := hΔ.ne'
  have hdiff : ∀ i : Fin (2 * p - 1), diffC da.coord i = Δ := by
    intro i
    unfold diffC
    rw [hc, hc]
    push_cast
    ring
  have hlag : da.coord ⟨(2 * p) / 2, by omega⟩ = 0 := by
    rw [hc]
    have hcast : (((⟨(2 * p) / 2, by omega⟩ : Fin (2 * p)) : ℕ) : ℚ) = ((p : ℕ) : ℚ) := by
      have : ((2 * p) / 2 : ℕ) = p := by omega
      exact_mod_cast congrArg (fun n : ℕ => ((n : ℕ) : ℚ)) this
    rw [hcast]
    ring
  have hchk : dftCheck tol da.coord = .ok (Δ, 0) := by
    rw [dftCheck_ok h2 da.coord Δ tol htol hΔ hdiff, hlag]
  have hdft : dft1R tol true true true da =
      .ok ⟨rfftfreqQ (2 * p) Δ,
        fun i => (Δ : ℂ) * rfftF (ifftshiftF fun j => ((da.vals j : ℝ) : ℂ)) i⟩ := by
    unfold dft1R
    rw [hchk]
    simp only [if_true, mul_zero, neg_zero, cexp_zero, mul_one]
  refine ⟨_, hdft, ?_⟩
  -- inverse side
  have h2M : 2 ≤ (2 * p) / 2 + 1 := by omega
  have hδ2 : (0 : ℚ) < 1 / (((2 * p : ℕ) : ℚ) * Δ) := by positivity
  have hdiffk : ∀ i : Fin ((2 * p) / 2 + 1 - 1),
      diffC (rfftfreqQ (2 * p) Δ) i = 1 / (((2 * p : ℕ) : ℚ) * Δ) :=
    fun i => diffC_rfftfreq (2 * p) Δ i
  have hfirst : rfftfreqQ (2 * p) Δ ⟨0, by omega⟩ = 0 := by
    unfold rfftfreqQ
    simp
  have hichk : idftCheck tol true (rfftfreqQ (2 * p) Δ) =
      .ok (1 / (((2 * p : ℕ) : ℚ) * Δ), false) := by
    apply idftCheck_ok h2M true _ _ tol htol hδ2 hdiffk
    rw [if_pos rfl, hfirst, abs_zero]
    exact htol
  have h2n : 2 ≤ 2 * ((2 * p) / 2 + 1 - 1) := by omega
  unfold idft1R
  simp only [hichk]
  rw [dif_pos h2n]
  simp only [Bool.false_eq_true, eq_self_iff_true, if_true, if_false]
  -- value pipeline
  have hxv : ifftshiftF (fun j : Fin (2 * p) => ((da.vals j : ℝ) : ℂ)) =
      fun j => ((ifftshiftF da.vals j : ℝ) : ℂ) := rfl
  have hQC : ((Δ : ℚ) : ℂ) = (((Δ : ℚ) : ℝ) : ℂ) := by norm_cast
  have hirfft : irfftF (fun k => ((Δ : ℚ) : ℂ) *
      rfftF (fun j => ((ifftshiftF da.vals j : ℝ) : ℂ)) k) =
      fun m : Fin (2 * ((2 * p) / 2 + 1 - 1)) =>
        ((Δ : ℚ) : ℝ) * ifftshiftF da.vals ⟨(m : ℕ), by have := m.isLt; omega⟩ := by
    rw [hQC, irfftF_smul ((Δ : ℚ) : ℝ) (rfftF (fun j => ((ifftshiftF da.vals j : ℝ) : ℂ)))]
    funext m
    rw [irfftF_rfftF_even p hp (ifftshiftF da.vals) m]
  have hshiftcan : ∀ g : Fin (2 * p) → ℝ,
      fftshiftF (fun m : Fin (2 * ((2 * p) / 2 + 1 - 1)) =>
        ifftshiftF g ⟨(m : ℕ), by have := m.isLt; omega⟩) =
      fun j : Fin (2 * ((2 * p) / 2 + 1 - 1)) => g ⟨(j : ℕ), by have := j.isLt; omega⟩ := by
    intro g
    funext j
    show g ⟨((((j : ℕ) + (2 * ((2 * p) / 2 + 1 - 1) - 2 * ((2 * p) / 2 + 1 - 1) / 2)) %
      (2 * ((2 * p) / 2 + 1 - 1)) + (2 * p) / 2) % (2 * p) : ℕ), Nat.mod_lt _ hN0⟩ =
      g ⟨(j : ℕ), by have := j.isLt; omega⟩
    congr 1
    apply Fin.ext
    show (((j : ℕ) + (2 * ((2 * p) / 2 + 1 - 1) - 2 * ((2 * p) / 2 + 1 - 1) / 2)) %
      (2 * ((2 * p) / 2 + 1 - 1)) + (2 * p) / 2) % (2 * p) = (j : ℕ)
    have hn : 2 * ((2 * p) / 2 + 1 - 1) = 2 * p := by omega
    generalize hj : (j : ℕ) = jv
    have hjlt : jv < 2 * ((2 * p) / 2 + 1 - 1) := hj ▸ j.isLt
    rw [hn] at hjlt
    rw [hn, Nat.mod_add_mod]
    have hsum2 : jv + (2 * p - 2 * p / 2) + (2 * p) / 2 = jv + 2 * p := by omega
    rw [hsum2, Nat.add_mod_right, Nat.mod_eq_of_lt hjlt]
  rw [hxv, hirfft]
  have hvals2 : fftshiftF (fun m : Fin (2 * ((2 * p) / 2 + 1 - 1)) =>
      ((Δ : ℚ) : ℝ) * ifftshiftF da.vals ⟨(m : ℕ), by have := m.isLt; omega⟩) =
      fun j : Fin (2 * ((2 * p) / 2 + 1 - 1)) =>
        ((Δ : ℚ) : ℝ) * da.vals ⟨(j : ℕ), by have := j.isLt; omega⟩ := by
    have h1 : fftshiftF (fun m : Fin (2 * ((2 * p) / 2 + 1 - 1)) =>
        ((Δ : ℚ) : ℝ) * ifftshiftF da.vals ⟨(m : ℕ), by have := m.isLt; omega⟩) =
        fun j => ((Δ : ℚ) : ℝ) * fftshiftF (fun m : Fin (2 * ((2 * p) / 2 + 1 - 1)) =>
          ifftshiftF da.vals ⟨(m : ℕ), by have := m.isLt; omega⟩) j := rfl
    rw [h1, hshiftcan da.vals]
  rw [hvals2]
  have hn2 : 2 * ((2 * p) / 2 + 1 - 1) = 2 * p := by omega
  have hnQ : ((2 * ((2 * p) / 2 + 1 - 1) : ℕ) : ℚ) = ((2 * p : ℕ) : ℚ) := by
    exact_mod_cast congrArg (fun n : ℕ => ((n : ℕ) : ℚ)) hn2
  have hspacing : fftshiftF (fftfreqQ (2 * ((2 * p) / 2 + 1 - 1))
      (1 / (((2 * p : ℕ) : ℚ) * Δ))) ⟨1, by omega⟩ -
      fftshiftF (fftfreqQ (2 * ((2 * p) / 2 + 1 - 1))
      (1 / (((2 * p : ℕ) : ℚ) * Δ))) ⟨0, by omega⟩ = Δ := by
    rw [fftshiftF_fftfreqQ, fftshiftF_fftfreqQ, div_sub_div_same, hnQ]
    push_cast
    field_simp
  have hhalfQ : (((2 * ((2 * p) / 2 + 1 - 1)) / 2 : ℕ) : ℚ) = ((p : ℕ) : ℚ) := by
    have hhalf : ((2 * ((2 * p) / 2 + 1 - 1)) / 2 : ℕ) = p := by omega
    exact_mod_cast congrArg (fun n : ℕ => ((n : ℕ) : ℚ)) hhalf
  have hkcoord : fftshiftF (fftfreqQ (2 * ((2 * p) / 2 + 1 - 1))
      (1 / (((2 * p : ℕ) : ℚ) * Δ))) =
      fun j : Fin (2 * ((2 * p) / 2 + 1 - 1)) =>
        da.coord ⟨(j : ℕ), by have := j.isLt; omega⟩ := by
    funext j
    rw [fftshiftF_fftfreqQ, hc, hhalfQ, hnQ]
    have hjc : (((⟨(j : ℕ), by have := j.isLt; omega⟩ : Fin (2 * p)) : ℕ) : ℚ) =
        ((j : ℕ) : ℚ) := rfl
    rw [hjc]
    field_simp
    ring
  rw [hspacing, hkcoord]
  congr 1
  simp only [QR.mk.injEq, true_and]
  funext i
  exact mul_div_cancel_left₀ _ (by exact_mod_cast hΔne : ((Δ : ℚ) : ℝ) ≠ 0)

/-- Embedding of the renaming rule of `_new_dims_and_coords` (xrft.py line 149):
`new_name = prefix + d if d[:len(prefix)] != prefix else d[len(prefix):]`.
Dimension names are modeled as lists of characters; the same rule is invoked by
both `dft` and `idft` through `_new_dims_and_coords`. -/
def newNameL (pre d : List Char) : List Char :=
  if d.take pre.length ≠ pre then pre ++ d else d.drop pre.length

/-- The dimension-mismatch condition of `cross_spectrum` (xrft.py line 718):
`daft1.dims != daft2.dims` compares the tuples of output dimension names, which
for a one-axis transform are the renamed (`_new_dims_and_coords`) input names.
Shapes play no part in this comparison. -/
def crossDimsMismatch (pre name1 name2 : List Char) : Bool :=
  decide ([newNameL pre name1] ≠ [newNameL pre name2])

/-- One-axis `power_spectrum` (complex path, `real=None`).  The function
overrides the caller's flags with `true_amplitude=True, true_phase=False`
(xrft.py lines 642-644) no matter what the caller passed, computes
`|daft|^2` and applies the scaling mode (lines 650-665). -/
noncomputable def powerSpectrum1 (tol : ℚ) (shift : Bool) (scaling : String)
    (callerTruePhase callerTrueAmplitude : Bool) {N : ℕ} (da : QC N) : Except XErr (QR N) :=
  match dft1 tol shift false true da with
  | .error e => .error e
  | .ok daft =>
    if h2 : 2 ≤ N then
      let ps0 : Fin N → ℝ := fun i => Complex.abs (daft.vals i) ^ 2
      let fs : ℚ := daft.coord ⟨1, by omega⟩ - daft.coord ⟨0, by omega⟩
      match scaling with
      | "density" => .ok ⟨daft.coord, fun i => ps0 i * (fs : ℝ)⟩
      | "spectrum" => .ok ⟨daft.coord, fun i => ps0 i * (fs : ℝ) ^ 2⟩
      | "false_density" => .ok ⟨daft.coord, ps0⟩
      | _ => .error .invalidScaling
    else .error .indexErr

/-- One-axis `cross_spectrum` (complex path, `real=None`, matched grids where
xarray alignment is the identity).  `true_amplitude` is forced to `True`
(xrft.py line 713), `true_phase` is left to the caller; after both forward
transforms the dims tuples are compared (line 718), then
`cs = daft1 * conj(daft2)` and the scaling mode is applied (lines 721-739). -/
noncomputable def crossSpectrum1 (tol : ℚ) (shift truePhase : Bool) (scaling : String)
    (pre name1 name2 : List Char) {N : ℕ} (da1 da2 : QC N) : Except XErr (QC N) :=
  match dft1 tol shift truePhase true da1 with
  | .error e => .error e
  | .ok daft1 =>
    match dft1 tol shift truePhase true da2 with
    | .error e => .error e
    | .ok daft2 =>
      if crossDimsMismatch pre name1 name2 then .error .mismatchedDims
      else
        if h2 : 2 ≤ N then
          let cs : Fin N → ℂ := fun i => daft1.vals i * (starRingEnd ℂ) (daft2.vals i)
          let fs : ℚ := daft1.coord ⟨1, by omega⟩ - daft1.coord ⟨0, by omega⟩
          match scaling with
          | "density" => .ok ⟨daft1.coord, fun i => cs i * ((fs : ℚ) : ℂ)⟩
          | "spectrum" => .ok ⟨daft1.coord, fun i => cs i * ((fs : ℚ) : ℂ) ^ 2⟩
          | "false_density" => .ok ⟨daft1.coord, cs⟩
          | _ => .error .invalidScaling
        else .error .indexErr

/-- Two-axis labeled array (used for the claims about the forward real path in
the presence of a second, non-real transformed axis). -/
structure QC2 (N1 N2 : ℕ) where
  coord1 : Fin N1 → ℚ
  coord2 : Fin N2 → ℚ
  vals : Fin N1 → Fin N2 → ℂ

/-- Two-axis `rfftn`: full DFT along axis 0, real DFT along the last axis. -/
noncomputable def rfft2 {N1 N2 : ℕ} (x : Fin N1 → Fin N2 → ℂ) :
    Fin N1 → Fin (N2 / 2 + 1) → ℂ :=
  fun k1 k2 => fftF (fun j1 => rfftF (x j1) k2) k1

/-- Two-axis `ifftshift` (both axes). -/
noncomputable def ifftshift2 {N1 N2 : ℕ} (x : Fin N1 → Fin N2 → ℂ) : Fin N1 → Fin N2 → ℂ :=
  fun i => ifftshiftF (ifftshiftF x i)

/-- Two-axis `fftshift` (both transformed axes, as `fftshift(f, axes=axis_num)`). -/
noncomputable def fftshift2 {N1 N2 : ℕ} (x : Fin N1 → Fin N2 → ℂ) : Fin N1 → Fin N2 → ℂ :=
  fun i => fftshiftF (fftshiftF x i)

/-- Two-axis forward `dft` with `real` set to the second axis.  When `real` is
not `None`, dft overwrites `shift = False` before the kernel (xrft.py lines
329-333); the later `if shift:` blocks (line 373, and the `shift` argument of
`_freq`, line 376) therefore never fire for ANY axis.  The requested `shift`
flag is received but ignored. -/
noncomputable def dft2R (tol : ℚ) (_shift truePhase trueAmplitude : Bool) {N1 N2 : ℕ}
    (da : QC2 N1 N2) : Except XErr (QC2 N1 (N2 / 2 + 1)) :=
  let shiftR := false
  match dftCheck tol da.coord1 with
  | .error e => .error e
  | .ok (delta1, lag1) =>
    match dftCheck tol da.coord2 with
    | .error e => .error e
    | .ok (delta2, lag2) =>
      let f0 : Fin N1 → Fin (N2 / 2 + 1) → ℂ :=
        if truePhase then rfft2 (ifftshift2 da.vals) else rfft2 da.vals
      let f1 : Fin N1 → Fin (N2 / 2 + 1) → ℂ := if shiftR then fftshift2 f0 else f0
      let k1 : Fin N1 → ℚ := if shiftR then fftshiftF (fftfreqQ N1 delta1) else fftfreqQ N1 delta1
      let k2 : Fin (N2 / 2 + 1) → ℚ :=
        if shiftR then fftshiftF (rfftfreqQ N2 delta2) else rfftfreqQ N2 delta2
      let f2 : Fin N1 → Fin (N2 / 2 + 1) → ℂ :=
        if truePhase then
          fun i j => f1 i j * cexp (-(k1 i * lag1)) * cexp (-(k2 j * lag2))
        else f1
      let f3 : Fin N1 → Fin (N2 / 2 + 1) → ℂ :=
        if trueAmplitude then fun i j => ((delta1 * delta2 : ℚ) : ℂ) * f2 i j else f2
      .ok ⟨k1, k2, f3⟩

/-- Minimum of a grid function (`x.min()` as used by `pd.cut`). -/
noncomputable def gridMin {ι : Type*} [Fintype ι] (g : ι → ℝ) : ℝ :=
  if h : (Finset.univ : Finset ι).Nonempty then Finset.univ.inf' h g else 0

/-- Maximum of a grid function (`x.max()` as used by `pd.cut`). -/
noncomputable def gridMax {ι : Type*} [Fintype ι] (g : ι → ℝ) : ℝ :=
  if h : (Finset.univ : Finset ι).Nonempty then Finset.univ.sup' h g else 0

/-- Bin edges produced by `pd.cut(x, bins=nbins)`: `linspace(mn, mx, nbins+1)`
with the leftmost edge lowered by `0.1%` of the range so the minimum value
falls inside the first right-closed interval. -/
noncomputable def cutEdge (mn mx : ℝ) (nbins : ℕ) (i : ℕ) : ℝ :=
  if i = 0 then mn - (mx - mn) * (1 / 1000) else mn + i * ((mx - mn) / nbins)

open scoped Classical in
/-- Bin index assigned by `pd.cut` (right-closed intervals): the number of
interior/upper edges strictly below the value. -/
noncomputable def binCode (mn mx : ℝ) (nbins : ℕ) (v : ℝ) : ℕ :=
  ((Finset.Icc 1 nbins).filter (fun i => cutEdge mn mx nbins i < v)).card

open scoped Classical in
/-- Mean aggregation over one bin, embedding `numpy_groupies.aggregate` with
`func="mean"` and `fill_value=0` (an empty bin yields `0/0 = 0`). -/
noncomputable def binnedMean {ι : Type*} [Fintype ι] (vals : ι → ℝ) (code : ι → ℕ)
    (b : ℕ) : ℝ :=
  (∑ c ∈ Finset.univ.filter (fun c => code c = b), vals c) /
    (((Finset.univ.filter (fun c => code c = b)).card : ℕ) : ℝ)

/-- Embedding of `_groupby_bins_agg(array, group, bins=nbins, func="mean")`:
cut the group values into `nbins` equal-width bins over their range and take
the bin-grouped mean of `array`. -/
noncomputable def groupbyBinsMean {ι : Type*} [Fintype ι] (array : ι → ℝ) (group : ι → ℝ)
    (nbins : ℕ) (b : Fin nbins) : ℝ :=
  binnedMean array (fun c => binCode (gridMin group) (gridMax group) nbins (group c)) (b : ℕ)

/-- Embedding of `isotropize(ps, fftdim, nfactor)` (xrft.py lines 847-882) for
a two-axis spectrum: `k = ps[fftdim[1]]` (length `N2`), `l = ps[fftdim[0]]`
(length `N1`), `nbins = int(min(k.size, l.size)/nfactor)`,
`freq_r = sqrt(k**2 + l**2)`, both the radial frequency and the spectrum are
aggregated by bin-grouped mean, and the output is multiplied by its bin-mean
radial-frequency coordinate. -/
noncomputable def isotropizeM (nfactor : ℕ) {N1 N2 : ℕ} (l : Fin N1 → ℚ) (k : Fin N2 → ℚ)
    (ps : Fin N1 → Fin N2 → ℝ) : Fin (min N2 N1 / nfactor) → ℝ :=
  let freqR : Fin N1 × Fin N2 → ℝ :=
    fun c => Real.sqrt (((k c.2 : ℚ) : ℝ) ^ 2 + ((l c.1 : ℚ) : ℝ) ^ 2)
  let kr := groupbyBinsMean freqR freqR (min N2 N1 / nfactor)
  let iso := groupbyBinsMean (fun c => ps c.1 c.2) freqR (min N2 N1 / nfactor)
  fun b => iso b * kr b

/-- Radial frequency described by the spec: `r = sqrt(k1^2 + k2^2)` per grid
cell, combining the second-axis frequency `k` with the first-axis frequency
`l`. -/
noncomputable def rGrid {N1 N2 : ℕ} (l : Fin N1 → ℚ) (k : Fin N2 → ℚ)
    (c : Fin N1 × Fin N2) : ℝ :=
  Real.sqrt (((k c.2 : ℚ) : ℝ) ^ 2 + ((l c.1 : ℚ) : ℝ) ^ 2)

open scoped Classical in
/-- The set of grid cells in radial bin `b` as the spec describes it: the
`b`-th right-closed equal-width interval partitioning the radial range. -/
noncomputable def binSetC (nfactor : ℕ) {N1 N2 : ℕ} (l : Fin N1 → ℚ) (k : Fin N2 → ℚ)
    (b : Fin (min N2 N1 / nfactor)) : Finset (Fin N1 × Fin N2) :=
  Finset.univ.filter (fun c =>
    cutEdge (gridMin (rGrid l k)) (gridMax (rGrid l k)) (min N2 N1 / nfactor) b <
      rGrid l k c ∧
    rGrid l k c ≤
      cutEdge (gridMin (rGrid l k)) (gridMax (rGrid l k)) (min N2 N1 / nfactor) (b + 1))

/-- A concrete 64-point frequency axis used to instantiate the isotropization
model. -/
def k64 : Fin 64 → ℚ := fun j => ((j : ℕ) : ℚ)

deriving instance DecidableEq for Except

/-- Success flag of a fallible call (no result is produced on `error`). -/
def exceptIsOk {α : Type*} : Except XErr α → Bool
  | .ok _ => true
  | .error _ => false

theorem dft1_error_iff {N : ℕ} (tol : ℚ) (s tp ta : Bool) (da : QC N) (e : XErr) :
    dft1 tol s tp ta da = .error e ↔ dftCheck tol da.coord = .error e := by
  unfold dft1
  cases h : dftCheck tol da.coord with
  | error e' => simp
  | ok pr =>
    obtain ⟨d, l⟩ := pr
    simp

theorem dft1_shape {N : ℕ} (tol : ℚ) (s tp ta : Bool) (da : QC N) (d l : ℚ)
    (h : dftCheck tol da.coord = .ok (d, l)) :
    ∃ v, dft1 tol s tp ta da =
      .ok ⟨(if s then fftshiftF (fftfreqQ N d) else fftfreqQ N d), v⟩ := by
  unfold dft1
  rw [h]
  exact ⟨_, rfl⟩

theorem dft1_isOk {N : ℕ} (tol : ℚ) (s tp ta : Bool) (da : QC N) (d l : ℚ)
    (h : dftCheck tol da.coord = .ok (d, l)) :
    exceptIsOk (dft1 tol s tp ta da) = true := by
  obtain ⟨v, hv⟩ := dft1_shape tol s tp ta da d l h
  rw [hv]
  rfl

theorem idft1_coord_nolag {N : ℕ} (tol : ℚ) (s tp ta : Bool) (da : QC N) (d : ℚ) (srt : Bool)
    (h2 : 2 ≤ N) (h : idftCheck tol false da.coord = .ok (d, srt)) :
    (idft1 tol s tp ta none da).map (fun y => y.coord) =
      .ok (if s then fftshiftF (fftfreqQ N d) else fftfreqQ N d) := by
  unfold idft1
  simp only [h, dif_pos h2]
  rfl

theorem idft1R_isOk {M : ℕ} (tol : ℚ) (s tp ta : Bool) (lagO : Option ℚ) (da : QC M)
    (d : ℚ) (srt : Bool) (h : idftCheck tol true da.coord = .ok (d, srt))
    (h2 : 2 ≤ 2 * (M - 1)) :
    exceptIsOk (idft1R tol s tp ta lagO da) = true := by
  unfold idft1R
  cases lagO with
  | none =>
    simp only [h, dif_pos h2]
    rfl
  | some lv =>
    simp only [h, dif_pos h2]
    rfl

theorem idft1_uncentered_iff {N : ℕ} (tol : ℚ) (s tp ta : Bool) (lagO : Option ℚ)
    (da : QC N) :
    idft1 tol s tp ta lagO da = .error .uncentered ↔
      idftCheck tol false da.coord = .error .uncentered := by
  unfold idft1
  cases lagO with
  | none =>
    cases h : idftCheck tol false da.coord with
    | error e => simp [h]
    | ok pr =>
      obtain ⟨d, srt⟩ := pr
      by_cases h2 : 2 ≤ N <;> simp [h, h2]
  | some lv =>
    rw [show (⟨da.coord, fun i => da.vals i * cexp (da.coord i * lv)⟩ : QC N).coord = da.coord
      from rfl]
    cases h : idftCheck tol false da.coord with
    | error e => simp [h]
    | ok pr =>
      obtain ⟨d, srt⟩ := pr
      by_cases h2 : 2 ≤ N <;> simp [h, h2]

theorem idft1R_uncentered_iff {M : ℕ} (tol : ℚ) (s tp ta : Bool) (lagO : Option ℚ)
    (da : QC M) :
    idft1R tol s tp ta lagO da = .error .uncentered ↔
      idftCheck tol true da.coord = .error .uncentered := by
  unfold idft1R
  cases lagO with
  | none =>
    cases h : idftCheck tol true da.coord with
    | error e => simp [h]
    | ok pr =>
      obtain ⟨d, srt⟩ := pr
      by_cases h2 : 2 ≤ 2 * (M - 1) <;> simp [h, h2]
  | some lv =>
    rw [show (⟨da.coord, fun i => da.vals i * cexp (da.coord i * lv)⟩ : QC M).coord = da.coord
      from rfl]
    cases h : idftCheck tol true da.coord with
    | error e => simp [h]
    | ok pr =>
      obtain ⟨d, srt⟩ := pr
      by_cases h2 : 2 ≤ 2 * (M - 1) <;> simp [h, h2]

theorem dftCheck_nonUniform_iff {N : ℕ} (h2 : 2 ≤ N) (c : Fin N → ℚ) (tol : ℚ) :
    dftCheck tol c = .error .nonUniform ↔ ¬ (uniformOK h2 c tol = true) := by
  unfold dftCheck
  rw [dif_pos h2]
  by_cases hu : uniformOK h2 c tol = true
  · by_cases hd : |diff0 h2 c| = 0 <;> simp [hu, hd]
  · simp [hu]

theorem idftCheck_uncentered_iff {N : ℕ} (h2 : 2 ≤ N) (isReal : Bool) (c : Fin N → ℚ)
    (tol : ℚ) :
    idftCheck tol isReal c = .error .uncentered ↔
      ((uniformOK h2 c tol = true ∨ uniformOK h2 (fun j => c (sortPerm c j)) tol = true) ∧
        tol < |if uniformOK h2 c tol then
            (if isReal then c ⟨0, by omega⟩ else c ⟨N / 2, by omega⟩)
          else (fun j => c (sortPerm c j)) ⟨N / 2, by omega⟩|) := by
  unfold idftCheck
  rw [dif_pos h2]
  by_cases hu : uniformOK h2 c tol = true
  · by_cases hl : tol < |if isReal then c ⟨0, by omega⟩ else c ⟨N / 2, by omega⟩|
    · simp [hu, hl]
    · by_cases hd : |diff0 h2 c| = 0 <;> simp [hu, hl, hd]
  · by_cases hu2 : uniformOK h2 (fun j => c (sortPerm c j)) tol = true
    · by_cases hl : tol < |(fun j => c (sortPerm c j)) (⟨N / 2, by omega⟩ : Fin N)|
      · simp [hu, hu2, hl]
      · by_cases hd : |diff0 h2 c| = 0 <;> simp [hu, hu2, hl, hd]
    · simp [hu, hu2]

/-!  Claim theorems. -/

/-- C9: `power_spectrum` overrides the caller's `true_phase`/`true_amplitude`
with `False`/`True` (xrft.py lines 642-644): the output does not depend on the
caller-supplied values, and when the forward transform it actually invokes
(`dft` with `true_phase=False, true_amplitude=True`) fails, `power_spectrum`
propagates exactly that failure whatever flags the caller passed. -/
theorem C9_power_spectrum_overrides_flags :
    (∀ (tol : ℚ) (shift : Bool) (scaling : String) (tp ta tp' ta' : Bool) (N : ℕ) (da : QC N),
      powerSpectrum1 tol shift scaling tp ta da = powerSpectrum1 tol shift scaling tp' ta' da) ∧
    (∀ (tol : ℚ) (shift : Bool) (scaling : String) (tp ta : Bool) (N : ℕ) (da : QC N)
      (e : XErr), dft1 tol shift false true da = .error e →
      powerSpectrum1 tol shift scaling tp ta da = .error e) := by
  constructor
  · intro tol shift scaling tp ta tp' ta' N da
    rfl
  · intro tol shift scaling tp ta N da e h
    unfold powerSpectrum1
    rw [h]

/-- C9 witness: a concrete non-uniform axis makes the internally invoked
forward transform fail, and `power_spectrum` (with caller flags
`true_phase=True, true_amplitude=False`) propagates exactly that error. -/
theorem C9_power_spectrum_overrides_flags_witness :
    powerSpectrum1 (1/1000 : ℚ) true "density" true false
      (⟨![0, 1, 3], ![0, 0, 0]⟩ : QC 3) = .error .nonUniform := by
  apply C9_power_spectrum_overrides_flags.2
  rw [dft1_error_iff]
  decide

/-- C5: `power_spectrum` scaling modes (xrft.py lines 650-665): `density`
multiplies the squared-magnitude transform by the output-axis spacing,
`spectrum` by its square, `false_density` leaves it unscaled, and any other
scaling string raises the invalid-scaling error after the transform, producing
no result. -/
theorem C5_power_spectrum_scaling :
    (∀ (tol : ℚ) (shift tp ta : Bool) (N : ℕ) (da : QC N),
      powerSpectrum1 tol shift "density" tp ta da =
        (dft1 tol shift false true da).bind (fun daft =>
          if h2 : 2 ≤ N then
            .ok ⟨daft.coord, fun i => Complex.abs (daft.vals i) ^ 2 *
              ((daft.coord ⟨1, by omega⟩ - daft.coord ⟨0, by omega⟩ : ℚ) : ℝ)⟩
          else .error .indexErr)) ∧
    (∀ (tol : ℚ) (shift tp ta : Bool) (N : ℕ) (da : QC N),
      powerSpectrum1 tol shift "spectrum" tp ta da =
        (dft1 tol shift false true da).bind (fun daft =>
          if h2 : 2 ≤ N then
            .ok ⟨daft.coord, fun i => Complex.abs (daft.vals i) ^ 2 *
              ((daft.coord ⟨1, by omega⟩ - daft.coord ⟨0, by omega⟩ : ℚ) : ℝ) ^ 2⟩
          else .error .indexErr)) ∧
    (∀ (tol : ℚ) (shift tp ta : Bool) (N : ℕ) (da : QC N),
      powerSpectrum1 tol shift "false_density" tp ta da =
        (dft1 tol shift false true da).bind (fun daft =>
          if 2 ≤ N then
            .ok ⟨daft.coord, fun i => Complex.abs (daft.vals i) ^ 2⟩
          else .error .indexErr)) ∧
    (∀ (tol : ℚ) (shift tp ta : Bool) (N : ℕ) (da : QC N) (sc : String),
      sc ≠ "density" → sc ≠ "spectrum" → sc ≠ "false_density" →
      powerSpectrum1 tol shift sc tp ta da =
        (dft1 tol shift false true da).bind (fun _ =>
          if 2 ≤ N then Except.error .invalidScaling else .error .indexErr)) := by
  refine ⟨?_, ?_, ?_, ?_⟩
  · intro tol shift tp ta N da
    unfold powerSpectrum1
    cases hd : dft1 tol shift false true da with
    | error e => simp [Except.bind]
    | ok daft =>
      by_cases h2 : 2 ≤ N <;> simp [Except.bind, h2]
  · intro tol shift tp ta N da
    unfold powerSpectrum1
    cases hd : dft1 tol shift false true da with
    | error e => simp [Except.bind]
    | ok daft =>
      by_cases h2 : 2 ≤ N <;> simp [Except.bind, h2]
  · intro tol shift tp ta N da
    unfold powerSpectrum1
    cases hd : dft1 tol shift false true da with
    | error e => simp [Except.bind]
    | ok daft =>
      by_cases h2 : 2 ≤ N <;> simp [Except.bind, h2]
  · intro tol shift tp ta N da sc hs1 hs2 hs3
    unfold powerSpectrum1
    cases hd : dft1 tol shift false true da with
    | error e => simp [Except.bind]
    | ok daft =>
      by_cases h2 : 2 ≤ N <;> simp [Except.bind, h2, hs1, hs2, hs3]

/-- C5 witness: the unknown-scaling branch at a concrete input. -/
theorem C5_power_spectrum_scaling_witness :
    powerSpectrum1 (1/1000 : ℚ) true "bogus" false false (⟨![0, 1], ![1, 0]⟩ : QC 2) =
      (dft1 (1/1000 : ℚ) true false true (⟨![0, 1], ![1, 0]⟩ : QC 2)).bind (fun _ =>
        if 2 ≤ 2 then Except.error .invalidScaling else .error .indexErr) :=
  C5_power_spectrum_scaling.2.2.2 (1/1000) true false false 2 ⟨![0, 1], ![1, 0]⟩ "bogus"
    (by decide) (by decide) (by decide)

/-- C4 (amended): the coordinate `[0, 1, 2, 5]` raises the non-uniform-spacing
error at `spacing_tol = 1e-3` and passes at `spacing_tol = 2.0`; in general the
uniformity test accepts the axis iff every consecutive difference satisfies
`|diff_i - diff_0| <= 1e-8 + spacing_tol * |diff_0|`, i.e. `np.allclose` with
its default absolute tolerance `atol = 1e-8` in addition to the relative
term. -/
theorem C4_spacing_tolerance :
    (dft1 (1/1000 : ℚ) true false false (⟨![0, 1, 2, 5], ![1, 0, 0, 0]⟩ : QC 4) =
      .error .nonUniform) ∧
    (exceptIsOk (dft1 (2 : ℚ) true false false (⟨![0, 1, 2, 5], ![1, 0, 0, 0]⟩ : QC 4)) =
      true) ∧
    (∀ (N : ℕ) (tol : ℚ) (s tp ta : Bool) (da : QC N) (h2 : 2 ≤ N),
      dft1 tol s tp ta da = .error .nonUniform ↔
        ¬ ∀ i : Fin (N - 1), |diffC da.coord i - diff0 h2 da.coord| ≤
          1 / 100000000 + tol * |diff0 h2 da.coord|) := by
  refine ⟨?_, ?_, ?_⟩
  · rw [dft1_error_iff]
    decide
  · exact dft1_isOk _ _ _ _ _ 1 2 (by decide)
  · intro N tol s tp ta da h2
    rw [dft1_error_iff, dftCheck_nonUniform_iff h2, uniformOK_iff]
    exact Iff.rfl

/-- C4 witness: the general acceptance characterization instantiated at a
concrete axis and tolerance. -/
theorem C4_spacing_tolerance_witness :
    dft1 (0 : ℚ) true false false (⟨![0, 1, 2], ![0, 0, 0]⟩ : QC 3) = .error .nonUniform ↔
      ¬ ∀ i : Fin (3 - 1), |diffC (⟨![0, 1, 2], ![0, 0, 0]⟩ : QC 3).coord i -
        diff0 (by norm_num) (⟨![0, 1, 2], ![0, 0, 0]⟩ : QC 3).coord| ≤
        1 / 100000000 + 0 * |diff0 (by norm_num) (⟨![0, 1, 2], ![0, 0, 0]⟩ : QC 3).coord| :=
  C4_spacing_tolerance.2.2 3 0 true false false ⟨![0, 1, 2], ![0, 0, 0]⟩ (by norm_num)

/-- C4 counterexample to the claim as stated: the axis
`[0, 1e-9, 7e-9]` is accepted by the code at the default
`spacing_tol = 1e-3` (because `np.allclose` adds its absolute tolerance
`1e-8`), yet its consecutive differences violate the claimed acceptance bound
`|diff_i - diff_0| <= spacing_tol * |diff_0|`. -/
theorem C4_counterexample :
    exceptIsOk (dft1 (1/1000 : ℚ) true false false
      (⟨![0, 1/1000000000, 7/1000000000], ![0, 0, 0]⟩ : QC 3)) = true ∧
    ¬ (|diffC (![0, 1/1000000000, 7/1000000000] : Fin 3 → ℚ) ⟨1, by norm_num⟩ -
        diff0 (by norm_num) (![0, 1/1000000000, 7/1000000000] : Fin 3 → ℚ)| ≤
      (1/1000 : ℚ) * |diff0 (by norm_num) (![0, 1/1000000000, 7/1000000000] : Fin 3 → ℚ)|) := by
  constructor
  · exact dft1_isOk _ _ _ _ _ (1/1000000000) (1/1000000000) (by decide)
  · decide

/-- Output frequency coordinates of the two-axis real-path forward transform:
because `real` forces `shift = False` for ALL axes, both axes receive their
UNSHIFTED frequency bins (`fftfreq` order for the non-real axis, `rfftfreq`
for the real axis), whatever shift the caller requested. -/
theorem dft2R_coords (tol : ℚ) (s tp ta : Bool) {N1 N2 : ℕ} (da : QC2 N1 N2) :
    (dft2R tol s tp ta da).map (fun F => (F.coord1, F.coord2)) =
      (dftCheck tol da.coord1).bind (fun p1 =>
        (dftCheck tol da.coord2).map (fun p2 => (fftfreqQ N1 p1.1, rfftfreqQ N2 p2.1))) := by
  unfold dft2R
  cases h1 : dftCheck tol da.coord1 with
  | error e => simp [h1, Except.bind, Except.map]
  | ok p1 =>
    obtain ⟨d1, l1⟩ := p1
    cases h2 : dftCheck tol da.coord2 with
    | error e => simp [h1, h2, Except.bind, Except.map]
    | ok p2 =>
      obtain ⟨d2, l2⟩ := p2
      simp [h1, h2, Except.bind, Except.map]

/-- C2 (amended): when `real` is set, `dft` forces `shift = False` for ALL
transformed axes (xrft.py lines 329-333), not just the real one: the output is
completely independent of the requested `shift` flag, and every axis keeps its
unshifted (kernel-order) frequency bins - `fftfreq` order for non-real axes,
`rfftfreq` for the real axis - with no `fftshift` applied to the kernel
output. -/
theorem C2_shift_forced_false_with_real :
    (∀ (tol : ℚ) (s1 s2 tp ta : Bool) (N1 N2 : ℕ) (da : QC2 N1 N2),
      dft2R tol s1 tp ta da = dft2R tol s2 tp ta da) ∧
    (∀ (tol : ℚ) (s tp ta : Bool) (N1 N2 : ℕ) (da : QC2 N1 N2),
      (dft2R tol s tp ta da).map (fun F => (F.coord1, F.coord2)) =
        (dftCheck tol da.coord1).bind (fun p1 =>
          (dftCheck tol da.coord2).map (fun p2 => (fftfreqQ N1 p1.1, rfftfreqQ N2 p2.1)))) :=
  ⟨fun _ _ _ _ _ _ _ _ => rfl, fun tol s tp ta N1 N2 da => dft2R_coords tol s tp ta da⟩

/-- C2 counterexample to the claim as stated: a forward call with
`shift=True` and `real` set on the second axis leaves the FIRST
(non-real) axis's frequency bins in kernel order `[0, 1/4, -1/2, -1/4]`,
which is not ascending, contradicting the claim that non-real axes are still
reordered. -/
theorem C2_counterexample :
    (dft2R (1/1000 : ℚ) true false false
      (⟨![0, 1, 2, 3], ![0, 1], fun _ _ => 1⟩ : QC2 4 2)).map
      (fun F => (F.coord1 ⟨1, by norm_num⟩, F.coord1 ⟨2, by norm_num⟩)) =
      .ok ((1/4 : ℚ), (-1/2 : ℚ)) ∧ ¬ ((1/4 : ℚ) ≤ (-1/2 : ℚ)) := by
  constructor
  · decide
  · norm_num

/-- C10 (amended): the `_new_dims_and_coords` renaming removes the prefix from
a name that already starts with it and prepends it otherwise; applying the rule
twice restores the original name except when removing the prefix exposes
another copy of the prefix (nested-prefix names such as `freq_freq_x`). -/
theorem C10_prefix_toggle :
    (∀ pre d : List Char, d.take pre.length = pre → newNameL pre d = d.drop pre.length) ∧
    (∀ pre d : List Char, d.take pre.length ≠ pre →
      newNameL pre (newNameL pre d) = d) ∧
    (∀ pre d : List Char, d.take pre.length = pre →
      (d.drop pre.length).take pre.length ≠ pre →
      newNameL pre (newNameL pre d) = d) := by
  refine ⟨?_, ?_, ?_⟩
  · intro pre d h
    unfold newNameL
    rw [if_neg (not_not_intro h)]
  · intro pre d h
    unfold newNameL
    rw [if_pos h]
    have htake : (pre ++ d).take pre.length = pre := List.take_left pre d
    rw [if_neg (not_not_intro htake), List.drop_left]
  · intro pre d h1 h2
    unfold newNameL
    rw [if_neg (not_not_intro h1), if_pos h2]
    conv_rhs => rw [← List.take_append_drop pre.length d]
    rw [h1]

/-- C10 witness: a name already starting with the prefix is de-prefixed. -/
theorem C10_prefix_toggle_witness :
    newNameL "freq_".toList "freq_x".toList =
      "freq_x".toList.drop "freq_".toList.length :=
  C10_prefix_toggle.1 "freq_".toList "freq_x".toList (by decide)

/-- C10 counterexample to involutivity as stated: applying the renaming twice
to `freq_freq_x` with prefix `freq_` yields `x`, not the original name. -/
theorem C10_counterexample :
    newNameL "freq_".toList (newNameL "freq_".toList "freq_freq_x".toList) = "x".toList ∧
    "x".toList ≠ "freq_freq_x".toList := by
  constructor <;> decide

theorem crossSpectrum1_of_mismatch {N : ℕ} (tol : ℚ) (s tp : Bool) (sc : String)
    (pre n1 n2 : List Char) (a b : QC N) (F1 F2 : QC N)
    (h1 : dft1 tol s tp true a = .ok F1) (h2 : dft1 tol s tp true b = .ok F2)
    (hm : crossDimsMismatch pre n1 n2 = true) :
    crossSpectrum1 tol s tp sc pre n1 n2 a b = .error .mismatchedDims := by
  unfold crossSpectrum1
  rw [h1, h2]
  simp [hm]

theorem crossSpectrum1_product {N : ℕ} (tol : ℚ) (s tp : Bool) (pre n1 n2 : List Char)
    (a b : QC N) (hm : crossDimsMismatch pre n1 n2 = false) :
    crossSpectrum1 tol s tp "density" pre n1 n2 a b =
      (dft1 tol s tp true a).bind (fun F1 => (dft1 tol s tp true b).bind (fun F2 =>
        if h2 : 2 ≤ N then
          .ok ⟨F1.coord, fun i => F1.vals i * (starRingEnd ℂ) (F2.vals i) *
            ((F1.coord ⟨1, by omega⟩ - F1.coord ⟨0, by omega⟩ : ℚ) : ℂ)⟩
        else .error .indexErr)) := by
  unfold crossSpectrum1
  cases h1 : dft1 tol s tp true a with
  | error e => simp [Except.bind]
  | ok F1 =>
    cases h2 : dft1 tol s tp true b with
    | error e => simp [Except.bind]
    | ok F2 =>
      by_cases hN : 2 ≤ N <;> simp [Except.bind, hm, hN]

/-- C3 (amended): `cross_spectrum` raises the dimension-mismatch error exactly
when the two forward transforms' dimension NAME tuples differ (xrft.py line 718
compares `daft1.dims != daft2.dims`, which carries no shape information); when
the name tuples coincide (matching transform axes) it returns the scaled
product of the first transform with the conjugate of the second. -/
theorem C3_cross_spectrum_mismatch :
    (∀ (N : ℕ) (tol : ℚ) (s tp : Bool) (sc : String) (pre n1 n2 : List Char)
      (a b : QC N) (F1 F2 : QC N),
      dft1 tol s tp true a = .ok F1 → dft1 tol s tp true b = .ok F2 →
      crossDimsMismatch pre n1 n2 = true →
      crossSpectrum1 tol s tp sc pre n1 n2 a b = .error .mismatchedDims) ∧
    (∀ (N : ℕ) (tol : ℚ) (s tp : Bool) (pre n1 n2 : List Char) (a b : QC N),
      crossDimsMismatch pre n1 n2 = false →
      crossSpectrum1 tol s tp "density" pre n1 n2 a b =
        (dft1 tol s tp true a).bind (fun F1 => (dft1 tol s tp true b).bind (fun F2 =>
          if h2 : 2 ≤ N then
            .ok ⟨F1.coord, fun i => F1.vals i * (starRingEnd ℂ) (F2.vals i) *
              ((F1.coord ⟨1, by omega⟩ - F1.coord ⟨0, by omega⟩ : ℚ) : ℂ)⟩
          else .error .indexErr))) :=
  ⟨fun _ tol s tp sc pre n1 n2 a b F1 F2 h1 h2 hm =>
      crossSpectrum1_of_mismatch tol s tp sc pre n1 n2 a b F1 F2 h1 h2 hm,
   fun _ tol s tp pre n1 n2 a b hm => crossSpectrum1_product tol s tp pre n1 n2 a b hm⟩

/-- C3 witness: with different dimension names the mismatch error is raised,
and with equal names the scaled conjugate product is returned. -/
theorem C3_cross_spectrum_mismatch_witness :
    crossSpectrum1 (1/1000 : ℚ) true false "density" "freq_".toList "x".toList "y".toList
      (⟨![0, 1], ![1, 0]⟩ : QC 2) (⟨![0, 1], ![0, 1]⟩ : QC 2) = .error .mismatchedDims ∧
    crossSpectrum1 (1/1000 : ℚ) true false "density" "freq_".toList "x".toList "x".toList
      (⟨![0, 1], ![1, 0]⟩ : QC 2) (⟨![0, 1], ![0, 1]⟩ : QC 2) =
      (dft1 (1/1000 : ℚ) true false true (⟨![0, 1], ![1, 0]⟩ : QC 2)).bind (fun F1 =>
        (dft1 (1/1000 : ℚ) true false true (⟨![0, 1], ![0, 1]⟩ : QC 2)).bind (fun F2 =>
          if h2 : 2 ≤ 2 then
            .ok ⟨F1.coord, fun i => F1.vals i * (starRingEnd ℂ) (F2.vals i) *
              ((F1.coord ⟨1, by omega⟩ - F1.coord ⟨0, by omega⟩ : ℚ) : ℂ)⟩
          else .error .indexErr)) := by
  constructor
  · obtain ⟨v1, hv1⟩ := dft1_shape (1/1000) true false true (⟨![0, 1], ![1, 0]⟩ : QC 2)
      1 1 (by decide)
    obtain ⟨v2, hv2⟩ := dft1_shape (1/1000) true false true (⟨![0, 1], ![0, 1]⟩ : QC 2)
      1 1 (by decide)
    exact C3_cross_spectrum_mismatch.1 2 (1/1000) true false "density" "freq_".toList
      "x".toList "y".toList _ _ _ _ hv1 hv2 (by decide)
  · exact C3_cross_spectrum_mismatch.2 2 (1/1000) true false "freq_".toList
      "x".toList "x".toList _ _ (by decide)

/-- C3 counterexample to the claim as stated: two inputs with the SAME
dimension name but DIFFERENT lengths (2 versus 4) along the transformed axis.
Both forward transforms succeed and the mismatch condition of xrft.py line 718
evaluates to false - the dimension-name tuples coincide - so `cross_spectrum`
does not raise the claimed dimension-mismatch error even though the
transformed shapes disagree. -/
theorem C3_counterexample :
    crossDimsMismatch "freq_".toList "x".toList "x".toList = false ∧
    exceptIsOk (dft1 (1/1000 : ℚ) true false true (⟨![0, 1], ![1, 0]⟩ : QC 2)) = true ∧
    exceptIsOk (dft1 (1/1000 : ℚ) true false true
      (⟨![0, 1, 2, 3], ![1, 0, 0, 0]⟩ : QC 4)) = true ∧
    (2 : ℕ) ≠ 4 := by
  refine ⟨by decide, ?_, ?_, by decide⟩
  · exact dft1_isOk _ _ _ _ _ 1 1 (by decide)
  · exact dft1_isOk _ _ _ _ _ 1 2 (by decide)

theorem dft1_ok_coord {N : ℕ} (tol : ℚ) (s tp ta : Bool) (da : QC N) (F : QC N)
    (h : dft1 tol s tp ta da = .ok F) :
    ∃ d l, dftCheck tol da.coord = .ok (d, l) ∧
      F.coord = (if s then fftshiftF (fftfreqQ N d) else fftfreqQ N d) := by
  unfold dft1 at h
  cases hc : dftCheck tol da.coord with
  | error e =>
    rw [hc] at h
    cases h
  | ok pr =>
    obtain ⟨d, l⟩ := pr
    rw [hc] at h
    refine ⟨d, l, rfl, ?_⟩
    injection h with h'
    rw [← h']

theorem crossDimsMismatch_swap (pre n1 n2 : List Char) :
    crossDimsMismatch pre n1 n2 = crossDimsMismatch pre n2 n1 := by
  unfold crossDimsMismatch
  exact decide_eq_decide.mpr ne_comm

/-- C8: `cross_spectrum(a, b)` equals the pointwise complex conjugate of
`cross_spectrum(b, a)` (same options in both calls) whenever the two inputs
live on the same coordinate grid: both calls succeed or fail identically, and
on success the values are conjugate. -/
theorem C8_cross_spectrum_symmetry :
    ∀ (tol : ℚ) (s tp : Bool) (sc : String) (pre n1 n2 : List Char) (N : ℕ)
      (a b : QC N), a.coord = b.coord →
      (crossSpectrum1 tol s tp sc pre n1 n2 a b).map (fun c => c.vals) =
        (crossSpectrum1 tol s tp sc pre n2 n1 b a).map
          (fun c => fun i => (starRingEnd ℂ) (c.vals i)) := by
  intro tol s tp sc pre n1 n2 N a b hco
  unfold crossSpectrum1
  cases h1 : dft1 tol s tp true a with
  | error e =>
    have h1' : dft1 tol s tp true b = .error e := by
      rw [dft1_error_iff] at h1 ⊢
      rw [← hco]
      exact h1
    rw [h1']
    simp [Except.map]
  | ok F1 =>
    cases h2 : dft1 tol s tp true b with
    | error e =>
      exfalso
      have h2' : dft1 tol s tp true a = .error e := by
        rw [dft1_error_iff] at h2 ⊢
        rw [hco]
        exact h2
      rw [h1] at h2'
      cases h2'
    | ok F2 =>
      rw [crossDimsMismatch_swap pre n1 n2]
      by_cases hm : crossDimsMismatch pre n2 n1 = true
      · simp [hm, Except.map]
      · have hkeq : F1.coord = F2.coord := by
          obtain ⟨d1, l1, hc1, hk1⟩ := dft1_ok_coord tol s tp true a F1 h1
          obtain ⟨d2, l2, hc2, hk2⟩ := dft1_ok_coord tol s tp true b F2 h2
          rw [hco] at hc1
          rw [hc1] at hc2
          injection hc2 with hpair
          obtain ⟨hd, _⟩ := Prod.mk.injEq .. ▸ hpair
          rw [hk1, hk2, hd]
        by_cases hN : 2 ≤ N
        · have hfs : F1.coord ⟨1, by omega⟩ - F1.coord ⟨0, by omega⟩ =
              F2.coord ⟨1, by omega⟩ - F2.coord ⟨0, by omega⟩ := by
            rw [hkeq]
          by_cases hs1 : sc = "density"
          · subst hs1
            simp only [Bool.not_eq_true] at hm
            simp only [hm, Bool.false_eq_true, if_false, dif_pos hN, Except.map]
            congr 1
            funext i
            rw [hfs]
            simp only [map_mul, Complex.conj_conj, map_ratCast]
            ring
          · by_cases hs2 : sc = "spectrum"
            · subst hs2
              simp only [Bool.not_eq_true] at hm
              simp only [hm, Bool.false_eq_true, if_false, dif_pos hN, Except.map]
              congr 1
              funext i
              rw [hfs]
              simp only [map_mul, map_pow, Complex.conj_conj, map_ratCast]
              ring
            · by_cases hs3 : sc = "false_density"
              · subst hs3
                simp only [Bool.not_eq_true] at hm
                simp only [hm, Bool.false_eq_true, if_false, dif_pos hN, Except.map]
                congr 1
                funext i
                simp only [map_mul, Complex.conj_conj]
                ring
              · simp only [Bool.not_eq_true] at hm
                simp only [hm, Bool.false_eq_true, if_false, dif_pos hN]
                simp [hs1, hs2, hs3, Except.map]
        · simp only [Bool.not_eq_true] at hm
          simp [hm, hN, Except.map]

/-- C8 witness: conjugate symmetry at a concrete pair on a shared grid. -/
theorem C8_cross_spectrum_symmetry_witness :
    (crossSpectrum1 (1/1000 : ℚ) true false "density" "freq_".toList "x".toList "x".toList
      (⟨![0, 1], ![1, 0]⟩ : QC 2) (⟨![0, 1], ![0, 1]⟩ : QC 2)).map (fun c => c.vals) =
    (crossSpectrum1 (1/1000 : ℚ) true false "density" "freq_".toList "x".toList "x".toList
      (⟨![0, 1], ![0, 1]⟩ : QC 2) (⟨![0, 1], ![1, 0]⟩ : QC 2)).map
        (fun c => fun i => (starRingEnd ℂ) (c.vals i)) :=
  C8_cross_spectrum_symmetry (1/1000) true false "density" "freq_".toList "x".toList
    "x".toList 2 ⟨![0, 1], ![1, 0]⟩ ⟨![0, 1], ![0, 1]⟩ rfl

/-- C6 (amended): the inverse transform raises the uncentered-spectrum error
exactly when the (possibly re-sorted) coordinate passes the even-spacing test
and its centering value exceeds `spacing_tol` in absolute value - where the
centering value is the midpoint lag for a non-real axis but the FIRST
coordinate for the real axis (xrft.py line 531); after a re-sort the midpoint
of the sorted coordinate is used in both cases.  The error is raised during
validation, before any kernel dispatch; axes whose centering value is within
tolerance pass the check. -/
theorem C6_uncentered_check :
    (∀ (N : ℕ) (tol : ℚ) (s tp ta : Bool) (lagO : Option ℚ) (da : QC N) (h2 : 2 ≤ N),
      idft1 tol s tp ta lagO da = .error .uncentered ↔
        ((uniformOK h2 da.coord tol = true ∨
            uniformOK h2 (fun j => da.coord (sortPerm da.coord j)) tol = true) ∧
          tol < |if uniformOK h2 da.coord tol then da.coord ⟨N / 2, by omega⟩
            else da.coord (sortPerm da.coord ⟨N / 2, by omega⟩)|)) ∧
    (∀ (M : ℕ) (tol : ℚ) (s tp ta : Bool) (lagO : Option ℚ) (da : QC M) (h2 : 2 ≤ M),
      idft1R tol s tp ta lagO da = .error .uncentered ↔
        ((uniformOK h2 da.coord tol = true ∨
            uniformOK h2 (fun j => da.coord (sortPerm da.coord j)) tol = true) ∧
          tol < |if uniformOK h2 da.coord tol then da.coord ⟨0, by omega⟩
            else da.coord (sortPerm da.coord ⟨M / 2, by omega⟩)|)) := by
  constructor
  · intro N tol s tp ta lagO da h2
    rw [idft1_uncentered_iff, idftCheck_uncentered_iff h2]
    exact Iff.rfl
  · intro M tol s tp ta lagO da h2
    rw [idft1R_uncentered_iff, idftCheck_uncentered_iff h2]
    exact Iff.rfl

/-- C6 witness: the characterization instantiated at a concrete centered
two-point frequency axis. -/
theorem C6_uncentered_check_witness :
    idft1 (1/1000 : ℚ) true true true none (⟨![-(1 : ℚ)/2, 0], ![1, 1]⟩ : QC 2) =
        .error .uncentered ↔
      ((uniformOK (by norm_num) (⟨![-(1 : ℚ)/2, 0], ![1, 1]⟩ : QC 2).coord (1/1000) = true ∨
          uniformOK (by norm_num) (fun j => (⟨![-(1 : ℚ)/2, 0], ![1, 1]⟩ : QC 2).coord
            (sortPerm (⟨![-(1 : ℚ)/2, 0], ![1, 1]⟩ : QC 2).coord j)) (1/1000) = true) ∧
        (1/1000 : ℚ) < |if uniformOK (by norm_num)
            (⟨![-(1 : ℚ)/2, 0], ![1, 1]⟩ : QC 2).coord (1/1000) then
          (⟨![-(1 : ℚ)/2, 0], ![1, 1]⟩ : QC 2).coord ⟨2 / 2, by omega⟩
        else (⟨![-(1 : ℚ)/2, 0], ![1, 1]⟩ : QC 2).coord
          (sortPerm (⟨![-(1 : ℚ)/2, 0], ![1, 1]⟩ : QC 2).coord ⟨2 / 2, by omega⟩)|) :=
  C6_uncentered_check.1 2 (1/1000) true true true none ⟨![-(1 : ℚ)/2, 0], ![1, 1]⟩
    (by norm_num)

/-- C6 counterexample to the claim as stated: an inverse real-path call on the
coordinate `[0, 1/4, 1/2]` (an `rfftfreq` axis).  Its midpoint lag is `1/4`,
far above `spacing_tol = 1e-3`, so the claim predicts the uncentered-spectrum
error; but the code checks the FIRST coordinate (`0`) for the real axis and
the call completes successfully. -/
theorem C6_counterexample :
    exceptIsOk (idft1R (1/1000 : ℚ) true true true none
      (⟨![0, 1/4, 1/2], ![1, 1, 1]⟩ : QC 3)) = true ∧
    (1/1000 : ℚ) < |(⟨![0, 1/4, 1/2], ![1, 1, 1]⟩ : QC 3).coord ⟨3 / 2, by norm_num⟩| := by
  constructor
  · exact idft1R_isOk (1/1000) true true true none _ (1/4) false (by decide) (by norm_num)
  · decide

/-- C1 (amended): with `true_phase=True`, `true_amplitude=True` and the
default `shift=True`, `idft(dft(x))` (no `lag` argument) reconstructs both the
values and the coordinates exactly, provided the transformed coordinate is
uniformly spaced WITH MIDPOINT (LAG) ZERO - the inverse re-centers the output
coordinate on zero, so a nonzero lag is not restored and a non-grid-aligned
origin corrupts the values.  This holds on the complex path for any length at
least 2 and on the real path for real-valued arrays of even length (the
`irfftn` default output length `2*(M-1)` matches only even input lengths). -/
theorem C1_roundtrip :
    (∀ (N : ℕ) (Δ tol : ℚ) (da : QC N), 2 ≤ N → 0 < Δ → 0 ≤ tol →
      (∀ j : Fin N, da.coord j = (((j : ℕ) : ℚ) - ((N / 2 : ℕ) : ℚ)) * Δ) →
      ∃ F : QC N, dft1 tol true true true da = .ok F ∧
        idft1 tol true true true none F = .ok da) ∧
    (∀ (p : ℕ) (Δ tol : ℚ) (da : QR (2 * p)), 1 ≤ p → 0 < Δ → 0 ≤ tol →
      (∀ j : Fin (2 * p), da.coord j = (((j : ℕ) : ℚ) - ((p : ℕ) : ℚ)) * Δ) →
      ∃ F : QC ((2 * p) / 2 + 1), dft1R tol true true true da = .ok F ∧
        idft1R tol true true true none F =
          .ok ⟨fun j => da.coord ⟨(j : ℕ), by have := j.isLt; omega⟩,
               fun j => da.vals ⟨(j : ℕ), by have := j.isLt; omega⟩⟩) :=
  ⟨fun N Δ tol da h2 hΔ htol hc => dft1_idft1_roundtrip N h2 Δ tol htol hΔ da hc,
   fun p Δ tol da hp hΔ htol hc => dft1R_idft1R_roundtrip p hp Δ tol htol hΔ da hc⟩

/-- C1 witness: the round trip at a concrete two-point complex array and a
concrete two-point real array, both on the centered grid `[-1, 0]`. -/
theorem C1_roundtrip_witness :
    (∃ F : QC 2, dft1 (1/1000 : ℚ) true true true
        (⟨![-1, 0], ![1, Complex.I]⟩ : QC 2) = .ok F ∧
      idft1 (1/1000 : ℚ) true true true none F =
        .ok (⟨![-1, 0], ![1, Complex.I]⟩ : QC 2)) ∧
    (∃ F : QC ((2 * 1) / 2 + 1), dft1R (1/1000 : ℚ) true true true
        (⟨![-1, 0], ![5, 7]⟩ : QR (2 * 1)) = .ok F ∧
      idft1R (1/1000 : ℚ) true true true none F =
        .ok ⟨fun j => (⟨![-1, 0], ![5, 7]⟩ : QR (2 * 1)).coord
              ⟨(j : ℕ), by have := j.isLt; omega⟩,
            fun j => (⟨![-1, 0], ![5, 7]⟩ : QR (2 * 1)).vals
              ⟨(j : ℕ), by have := j.isLt; omega⟩⟩) := by
  constructor
  · exact C1_roundtrip.1 2 1 (1/1000) ⟨![-1, 0], ![1, Complex.I]⟩ (by norm_num)
      (by norm_num) (by norm_num) (by decide)
  · exact C1_roundtrip.2 1 1 (1/1000) ⟨![-1, 0], ![5, 7]⟩ (by norm_num)
      (by norm_num) (by norm_num) (by decide)

/-- C1 counterexample to the claim as stated: the array on coordinates
`[1/2, 3/2]` (uniformly spaced, nonzero midpoint lag `3/2`).  The composed
`idft(dft(x, true_phase=True, true_amplitude=True), true_phase=True,
true_amplitude=True)` succeeds but returns the zero-centered coordinate
`[-1, 0]`: its first coordinate is `-1`, not the original `1/2`, so the
original coordinates are not reconstructed. -/
theorem C1_counterexample :
    (((dft1 (1/1000 : ℚ) true true true (⟨![1/2, 3/2], ![0, 1]⟩ : QC 2)).bind
      (idft1 (1/1000 : ℚ) true true true none)).map
        (fun y => y.coord ⟨0, by norm_num⟩) = .ok (-1 : ℚ)) ∧
    (⟨![1/2, 3/2], ![0, 1]⟩ : QC 2).coord ⟨0, by norm_num⟩ = 1/2 ∧ ((-1 : ℚ) ≠ 1/2) := by
  refine ⟨by decide, by decide, by norm_num⟩

theorem gridMin_le {ι : Type*} [Fintype ι] (g : ι → ℝ) (c : ι) : gridMin g ≤ g c := by
  unfold gridMin
  rw [dif_pos ⟨c, Finset.mem_univ c⟩]
  exact Finset.inf'_le _ (Finset.mem_univ c)

theorem le_gridMax {ι : Type*} [Fintype ι] (g : ι → ℝ) (c : ι) : g c ≤ gridMax g := by
  unfold gridMax
  rw [dif_pos ⟨c, Finset.mem_univ c⟩]
  exact Finset.le_sup' _ (Finset.mem_univ c)

theorem cutEdge_lt_cutEdge (mn mx : ℝ) (nbins : ℕ) (hR : mn < mx) :
    ∀ i j : ℕ, i < j → j ≤ nbins → cutEdge mn mx nbins i < cutEdge mn mx nbins j := by
  intro i j hij hj
  have hb : 0 < nbins := by omega
  have hnb : (0 : ℝ) < (nbins : ℝ) := by exact_mod_cast hb
  have hd : (0 : ℝ) < (mx - mn) / nbins := div_pos (by linarith) hnb
  unfold cutEdge
  by_cases hi : i = 0
  · subst hi
    rw [if_pos rfl, if_neg (by omega)]
    have hj1 : (1 : ℝ) ≤ (j : ℝ) := by exact_mod_cast (show 1 ≤ j by omega)
    nlinarith
  · rw [if_neg hi, if_neg (by omega)]
    have hij' : (i : ℝ) < (j : ℝ) := by exact_mod_cast hij
    nlinarith

theorem binCode_eq_iff (mn mx : ℝ) (nbins : ℕ) (hR : mn < mx) (v : ℝ)
    (hv1 : mn ≤ v) (_hv2 : v ≤ mx) (b : ℕ) (hbn : b < nbins) :
    binCode mn mx nbins v = b ↔
      (cutEdge mn mx nbins b < v ∧ v ≤ cutEdge mn mx nbins (b + 1)) := by
  classical
  have hb0 : 0 < nbins := by omega
  have hmono := cutEdge_lt_cutEdge mn mx nbins hR
  have hE0 : cutEdge mn mx nbins 0 < v := by
    unfold cutEdge
    rw [if_pos rfl]
    nlinarith
  constructor
  · intro hcode
    unfold binCode at hcode
    constructor
    · rcases Nat.eq_zero_or_pos b with hb | hb
      · subst hb; exact hE0
      · by_contra hnot
        push_neg at hnot
        have hsub : (Finset.Icc 1 nbins).filter (fun i => cutEdge mn mx nbins i < v) ⊆
            Finset.Icc 1 (b - 1) := by
          intro i hi
          simp only [Finset.mem_filter, Finset.mem_Icc] at hi ⊢
          obtain ⟨⟨h1i, h2i⟩, hlt⟩ := hi
          refine ⟨h1i, ?_⟩
          by_contra hgt
          push_neg at hgt
          have hle : cutEdge mn mx nbins b ≤ cutEdge mn mx nbins i := by
            rcases eq_or_lt_of_le (show b ≤ i by omega) with he | hlt2
            · rw [he]
            · exact le_of_lt (hmono b i hlt2 h2i)
          linarith
        have hcard := Finset.card_le_card hsub
        rw [hcode, Nat.card_Icc] at hcard
        omega
    · by_contra hnot
      push_neg at hnot
      have hsub : Finset.Icc 1 (b + 1) ⊆
          (Finset.Icc 1 nbins).filter (fun i => cutEdge mn mx nbins i < v) := by
        intro i hi
        simp only [Finset.mem_Icc, Finset.mem_filter] at hi ⊢
        obtain ⟨h1i, h2i⟩ := hi
        refine ⟨⟨h1i, by omega⟩, ?_⟩
        have hle : cutEdge mn mx nbins i ≤ cutEdge mn mx nbins (b + 1) := by
          rcases eq_or_lt_of_le h2i with he | hlt2
          · rw [he]
          · exact le_of_lt (hmono i (b + 1) hlt2 (by omega))
        linarith
      have hcard := Finset.card_le_card hsub
      rw [hcode, Nat.card_Icc] at hcard
      omega
  · rintro ⟨hlow, hhigh⟩
    unfold binCode
    have hset : (Finset.Icc 1 nbins).filter (fun i => cutEdge mn mx nbins i < v) =
        Finset.Icc 1 b := by
      apply Finset.ext
      intro i
      simp only [Finset.mem_filter, Finset.mem_Icc]
      constructor
      · rintro ⟨⟨h1i, h2i⟩, hlt⟩
        refine ⟨h1i, ?_⟩
        by_contra hgt
        push_neg at hgt
        have hle : cutEdge mn mx nbins (b + 1) ≤ cutEdge mn mx nbins i := by
          rcases eq_or_lt_of_le (show b + 1 ≤ i by omega) with he | hlt2
          · rw [he]
          · exact le_of_lt (hmono (b + 1) i hlt2 h2i)
        linarith
      · rintro ⟨h1i, h2i⟩
        refine ⟨⟨h1i, by omega⟩, ?_⟩
        have hle : cutEdge mn mx nbins i ≤ cutEdge mn mx nbins b := by
          rcases eq_or_lt_of_le h2i with he | hlt2
          · rw [he]
          · exact le_of_lt (hmono i b hlt2 (by omega))
        linarith
    rw [hset, Nat.card_Icc]
    omega

/-- C7: the isotropic averaging layer computes the radial frequency
`r = sqrt(k1^2 + k2^2)` per grid cell, partitions its range into exactly
`floor(min(axis_lengths)/nfactor)` equal-width bins (16 bins for a `(64, 64)`
spectrum with `nfactor = 4` — the output of `isotropizeM` is indexed by
`Fin (min N2 N1 / nfactor)`), aggregates both the radial frequency and the
spectrum by bin-mean, and multiplies the resulting 1-D output by the bin-mean
radial frequency: whenever the radial range is nondegenerate, each output
entry equals the mean of the spectrum over the cells of the `b`-th
right-closed equal-width radial interval, times the mean radial frequency
over those same cells. -/
theorem C7_isotropize_bins :
    (min 64 64 / 4 = 16) ∧
    ∀ (nfactor N1 N2 : ℕ) (l : Fin N1 → ℚ) (k : Fin N2 → ℚ)
      (ps : Fin N1 → Fin N2 → ℝ) (b : Fin (min N2 N1 / nfactor)),
      gridMin (rGrid l k) < gridMax (rGrid l k) →
      isotropizeM nfactor l k ps b =
        (∑ c ∈ binSetC nfactor l k b, ps c.1 c.2) / ((binSetC nfactor l k b).card : ℝ) *
          ((∑ c ∈ binSetC nfactor l k b, rGrid l k c) /
            ((binSetC nfactor l k b).card : ℝ)) := by
  refine ⟨by norm_num, ?_⟩
  intro nfactor N1 N2 l k ps b hR
  classical
  have hbn : (b : ℕ) < min N2 N1 / nfactor := b.isLt
  have hset : (Finset.univ.filter
      (fun c : Fin N1 × Fin N2 =>
        binCode (gridMin (rGrid l k)) (gridMax (rGrid l k)) (min N2 N1 / nfactor)
          (rGrid l k c) = (b : ℕ))) = binSetC nfactor l k b := by
    apply Finset.ext
    intro c
    simp only [binSetC, Finset.mem_filter, Finset.mem_univ, true_and]
    exact binCode_eq_iff _ _ _ hR _ (gridMin_le _ c) (le_gridMax _ c) _ hbn
  show groupbyBinsMean (fun c => ps c.1 c.2) (rGrid l k) (min N2 N1 / nfactor) b *
      groupbyBinsMean (rGrid l k) (rGrid l k) (min N2 N1 / nfactor) b =
    (∑ c ∈ binSetC nfactor l k b, ps c.1 c.2) / ((binSetC nfactor l k b).card : ℝ) *
      ((∑ c ∈ binSetC nfactor l k b, rGrid l k c) / ((binSetC nfactor l k b).card : ℝ))
  unfold groupbyBinsMean binnedMean
  rw [hset]

/-- C7 witness: the `64 x 64` integer frequency grid with `nfactor = 4` has a
nondegenerate radial range (`r(0,0) = 0 < 1 = r(0,1)`), and the first of its
16 radial bins satisfies the bin-mean product formula. -/
theorem C7_isotropize_bins_witness :
    gridMin (rGrid k64 k64) < gridMax (rGrid k64 k64) ∧
    isotropizeM 4 k64 k64 (fun _ _ => (1 : ℝ)) ⟨0, by norm_num⟩ =
      (∑ _c ∈ binSetC 4 k64 k64 ⟨0, by norm_num⟩, (1 : ℝ)) /
        ((binSetC 4 k64 k64 ⟨0, by norm_num⟩).card : ℝ) *
      ((∑ c ∈ binSetC 4 k64 k64 ⟨0, by norm_num⟩, rGrid k64 k64 c) /
        ((binSetC 4 k64 k64 ⟨0, by norm_num⟩).card : ℝ)) := by
  have h0 : rGrid k64 k64 (⟨0, by norm_num⟩, ⟨0, by norm_num⟩) = 0 := by
    simp [rGrid, k64]
  have h1 : rGrid k64 k64 (⟨0, by norm_num⟩, ⟨1, by norm_num⟩) = 1 := by
    simp [rGrid, k64]
  have hR : gridMin (rGrid k64 k64) < gridMax (rGrid k64 k64) := by
    calc gridMin (rGrid k64 k64) ≤ 0 :=
          le_of_le_of_eq (gridMin_le (rGrid k64 k64) (⟨0, by norm_num⟩, ⟨0, by norm_num⟩)) h0
      _ < 1 := one_pos
      _ ≤ gridMax (rGrid k64 k64) :=
          le_of_eq_of_le h1.symm (le_gridMax (rGrid k64 k64) (⟨0, by norm_num⟩, ⟨1, by norm_num⟩))
  exact ⟨hR, C7_isotropize_bins.2 4 64 64 k64 k64 (fun _ _ => (1 : ℝ)) ⟨0, by norm_num⟩ hR⟩

end Xrft
